import Mathlib

/-!
Verification of the crusty-db storage and query-execution core.

The development shallowly embeds the six Rust source files:
`heap_page.rs`, `heapfileiter.rs`, `storage_manager.rs` (heapstore), and
`aggregate.rs`, `hash_join.rs`, `nested_loop_join.rs` (queryexe).
Types owned by crates that are not part of the sources (`common`'s `Page`,
`PAGE_SIZE`, `Field`, heapfile I/O) are modelled from the spec and are marked
as such in their doc comments.

Rust `u8`/`u16` values are modelled as `Nat` with explicit `% 256` / `% 65536`
where the original code truncates; `panic` and `Err` outcomes are made explicit
through the `RustRes` type.
-/

set_option maxHeartbeats 1000000

/-- Outcome of a Rust call: a panic (`unwrap` on `None`, slice-length
mismatch, explicit `panic`), an `Err` value, or a successful result. -/
inductive RustRes (α : Type) where
  | panicked : RustRes α
  | errored : RustRes α
  | ok (a : α) : RustRes α
deriving DecidableEq

/-! ## Byte-store primitives

A page's `data: Vec<u8>` (length `PAGE_SIZE`) is modelled as a total function
`Nat → Nat`; only indices `< PAGE_SIZE` are meaningful, and the page invariant
proved below guarantees that every slice access of the source is in bounds, so
the bounds panics of Rust slicing cannot fire on reachable pages. -/

/-- Single byte store `self.data[i] = v`. -/
def upd (d : Nat → Nat) (i v : Nat) : Nat → Nat :=
  fun j => if j = i then v else d j

/-- Little-endian 16-bit read, `u16::from_le_bytes(&self.data[i..i+2])`. -/
def readU16 (d : Nat → Nat) (i : Nat) : Nat :=
  d i + 256 * d (i + 1)

/-- Little-endian 16-bit write, `copy_from_slice(&v.to_le_bytes())`: the two
stored bytes are the low and high byte of `v % 65536`. -/
def writeU16 (d : Nat → Nat) (i v : Nat) : Nat → Nat :=
  upd (upd d i (v % 256)) (i + 1) (v / 256 % 256)

/-- Region zeroing `self.data[a..b].fill(0)`. -/
def fillZero (d : Nat → Nat) (a b : Nat) : Nat → Nat :=
  fun j => if a ≤ j ∧ j < b then 0 else d j

/-- Overlapping-safe copy `self.data.copy_within(s..e, dst)`; like `memmove`
it reads the original contents. -/
def copyWithin (d : Nat → Nat) (s e dst : Nat) : Nat → Nat :=
  fun j => if dst ≤ j ∧ j < dst + (e - s) then d (s + (j - dst)) else d j

/-- Payload copy `self.data[a..a + bs.length].clone_from_slice(&bs)`, used
after its length precondition has been checked. -/
def writeBytes (d : Nat → Nat) (a : Nat) (bs : List Nat) : Nat → Nat :=
  fun j => if a ≤ j ∧ j < a + bs.length then bs.getD (j - a) 0 else d j

/-! ## Page (`common::Page`, modelled from the spec) and `heap_page.rs` -/

/-- Modelled from the spec: `PAGE_SIZE` of the `common` crate (not under
src/); the spec and the repository tests fix it at 4096. -/
def PAGE_SIZE : Nat := 4096

/-- Modelled from the spec: the `Page` struct of `page.rs` (not under src/):
a fixed-size byte buffer `data` of `PAGE_SIZE` bytes. -/
structure Page where
  data : Nat → Nat

/-- Modelled from the spec: `Page::new(page_id)` builds an empty page: all
bytes zero except the page id, stored little-endian at bytes 0..2.  The
persisted `first_free_offset` 0 means "unset" and is read back as
`PAGE_SIZE`. -/
def Page.new (pid : Nat) : Page :=
  ⟨writeU16 (fun _ => 0) 0 pid⟩

/-- Constant `META_HEADER_SIZE` of heap_page.rs. -/
def META_HEADER_SIZE : Nat := 8

/-- Constant `SLOT_META_SIZE` of heap_page.rs. -/
def SLOT_META_SIZE : Nat := 6

/-- Header-field location `PAGEID_LOC`. -/
def PAGEID_LOC : Nat := 0

/-- Header-field location `NUMSLOTS_LOC`. -/
def NUMSLOTS_LOC : Nat := 2

/-- Header-field location `FIRSTOFFSET_LOC`. -/
def FIRSTOFFSET_LOC : Nat := 4

/-- Header-field location `TOTSLOTS_LOC`. -/
def TOTSLOTS_LOC : Nat := 6

/-- Page id accessor (`Page::get_page_id`, reading bytes 0..2). -/
def getPageId (p : Page) : Nat :=
  readU16 p.data PAGEID_LOC

/-- `get_num_slots` of heap_page.rs: the number of live slots. -/
def getNumSlots (p : Page) : Nat :=
  readU16 p.data NUMSLOTS_LOC

/-- `get_first_offset` of heap_page.rs: a stored 0 is read as `PAGE_SIZE`. -/
def getFirstOffset (p : Page) : Nat :=
  let curOffset := readU16 p.data FIRSTOFFSET_LOC
  if curOffset = 0 then PAGE_SIZE else curOffset

/-- `get_total_slot_headers` of heap_page.rs. -/
def getTotalSlotHeaders (p : Page) : Nat :=
  readU16 p.data TOTSLOTS_LOC

/-- `get_header_size` of heap_page.rs. -/
def getHeaderSize (p : Page) : Nat :=
  META_HEADER_SIZE + SLOT_META_SIZE * getTotalSlotHeaders p

/-- `get_free_space` of heap_page.rs; the `if first < headersize { 0 }`
branch is the truncation built into `Nat` subtraction. -/
def getFreeSpace (p : Page) : Nat :=
  getFirstOffset p - getHeaderSize p

/-- `get_slot_size(_, loc)` of heap_page.rs: reads the size field of the
directory entry at byte location `loc`. -/
def getSlotSize (p : Page) (loc : Nat) : Nat :=
  readU16 p.data (loc + 2)

/-- `get_slot_offset(_, loc)` of heap_page.rs: reads the offset field of the
directory entry at byte location `loc`. -/
def getSlotOffset (p : Page) (loc : Nat) : Nat :=
  readU16 p.data (loc + 4)

/-- Loop of `get_slot_meta_loc`: scan the directory from byte `cur` for a
live entry whose slot id matches; an all-zero (deleted) entry with id 0 is
skipped.  The loop advances 6 bytes per iteration, so the structural `fuel`
argument (one more than the directory-entry count at every call site) never
runs out before the `cur < totalSpace` guard stops the scan. -/
def getSlotMetaLocAux (p : Page) (slot : Nat) : Nat → Nat → Nat → Option Nat
  | 0, _, _ => none
  | fuel + 1, cur, totalSpace =>
    if cur < totalSpace then
      let curSlotid := readU16 p.data cur
      if curSlotid = slot then
        if curSlotid = 0 ∧ getSlotOffset p cur = 0 then
          getSlotMetaLocAux p slot fuel (cur + 6) totalSpace
        else some cur
      else getSlotMetaLocAux p slot fuel (cur + 6) totalSpace
    else none

/-- `get_slot_meta_loc` of heap_page.rs. -/
def getSlotMetaLoc (p : Page) (slot : Nat) : Option Nat :=
  getSlotMetaLocAux p slot (getTotalSlotHeaders p + 1) META_HEADER_SIZE
    (META_HEADER_SIZE + getTotalSlotHeaders p * SLOT_META_SIZE)

/-- Collection loop of `get_next_slotid`: gather the slot ids of all
non-deleted directory entries.  `fuel` as in `getSlotMetaLocAux`. -/
def collectSlotIdsAux (p : Page) : Nat → Nat → Nat → List Nat
  | 0, _, _ => []
  | fuel + 1, cur, totalSpace =>
    if cur < totalSpace then
      let curSlotid := readU16 p.data cur
      if curSlotid = 0 ∧ getSlotOffset p cur = 0 then
        collectSlotIdsAux p fuel (cur + 6) totalSpace
      else curSlotid :: collectSlotIdsAux p fuel (cur + 6) totalSpace
    else []

/-- Final loop of `get_next_slotid`: walk the sorted id list, returning the
first gap, or the initial `min_missing` (the live-slot count) if there is
none. -/
def minMissingLoop (ids : List Nat) (minMissing expId : Nat) : Nat :=
  match ids with
  | [] => minMissing
  | id :: rest =>
    if id ≠ expId then expId else minMissingLoop rest minMissing (id + 1)

/-- `get_next_slotid` of heap_page.rs: the smallest available slot id.
`slot_vec.sort()` is Rust's stable ascending sort; on `Nat` any ascending
sort computes it, and `List.insertionSort` is used because it reduces in the
kernel. -/
def getNextSlotid (p : Page) : Nat :=
  let numSlotids := getNumSlots p
  let totalSlotHeaders := getTotalSlotHeaders p
  if totalSlotHeaders = numSlotids then numSlotids
  else
    let slotVec := collectSlotIdsAux p (totalSlotHeaders + 1) META_HEADER_SIZE
      (META_HEADER_SIZE + totalSlotHeaders * SLOT_META_SIZE)
    minMissingLoop (List.insertionSort (· ≤ ·) slotVec) numSlotids 0

/-- `add_value` of heap_page.rs.  `bytes.len() as Offset` truncates to 16
bits, hence the explicit `% 65536`; when the truncated size differs from the
actual length, `clone_from_slice` panics on the length mismatch.  The `u16`
subtraction `end_at - entry_size` cannot underflow once the free-space check
has passed, so `Nat` subtraction is exact there. -/
def addValue (p : Page) (bytes : List Nat) : RustRes (Page × Option Nat) :=
  let entrySize := bytes.length % 65536
  if getFreeSpace p ≥ entrySize + 6 then
    let slotId := getNextSlotid p
    let endAt := getFirstOffset p
    let d1 := writeU16 p.data NUMSLOTS_LOC (getNumSlots p + 1)
    let d2 := writeU16 d1 FIRSTOFFSET_LOC (endAt - entrySize)
    let slotmetaloc :=
      META_HEADER_SIZE + SLOT_META_SIZE * getTotalSlotHeaders (Page.mk d2)
    let d3 := writeU16 d2 TOTSLOTS_LOC (getTotalSlotHeaders (Page.mk d2) + 1)
    let d4 := writeU16 d3 slotmetaloc slotId
    if _hlen : entrySize = bytes.length then
      let d5 := writeBytes d4 (endAt - entrySize) bytes
      let d6 := writeU16 d5 (slotmetaloc + 4) endAt
      let d7 := writeU16 d6 (slotmetaloc + 2) entrySize
      .ok (Page.mk d7, some slotId)
    else .panicked
  else .ok (p, none)

/-- `get_value` of heap_page.rs: the payload window is
`data[offset - size .. offset]`. -/
def getValue (p : Page) (slotId : Nat) : Option (List Nat) :=
  match getSlotMetaLoc p slotId with
  | some slotmetaloc =>
    let slotSize := getSlotSize p slotmetaloc
    let offset := getSlotOffset p slotmetaloc
    some ((List.range slotSize).map fun k => p.data (offset - slotSize + k))
  | none => none

/-- While loop of `compact` in heap_page.rs.  `nsi` is `new_starting_idx` and
`noff` is `new_offset`; each live entry after the deleted header has its
payload moved to pack against `noff` and its directory offset rewritten.
`fuel` as in `getSlotMetaLocAux`. -/
def compactLoop : Nat → (Nat → Nat) → Nat → Nat → Nat → Nat → (Nat → Nat)
  | 0, d, _, _, _, _ => d
  | fuel + 1, d, curLoc, totalSlotSpace, nsi, noff =>
    if curLoc < totalSlotSpace then
      let slotsOffset := readU16 d (curLoc + 4)
      if slotsOffset ≠ 0 then
        let slotsSize := readU16 d (curLoc + 2)
        let nsi2 := noff - slotsSize
        let d1 := copyWithin d (slotsOffset - slotsSize) slotsOffset nsi2
        let d2 := writeU16 d1 (curLoc + 4) noff
        compactLoop fuel d2 (curLoc + 6) totalSlotSpace nsi2 nsi2
      else compactLoop fuel d (curLoc + 6) totalSlotSpace nsi nsi
    else d

/-- `delete_value` of heap_page.rs: zero the payload window, compact the
later entries, zero the directory entry, decrement the live count and raise
`first_free_offset` by the deleted size.  The mutation sequence follows the
source line by line. -/
def deleteValue (p : Page) (slotId : Nat) : Page × Option Unit :=
  match getSlotMetaLoc p slotId with
  | some slotmetaloc =>
    let slotSize := getSlotSize p slotmetaloc
    let offset := getSlotOffset p slotmetaloc
    let d1 := fillZero p.data (offset - slotSize) offset
    let d2 := compactLoop (getTotalSlotHeaders (Page.mk d1) + 1) d1
      (slotmetaloc + SLOT_META_SIZE)
      (META_HEADER_SIZE + getTotalSlotHeaders (Page.mk d1) * SLOT_META_SIZE)
      offset offset
    let d3 := writeU16 d2 slotmetaloc 0
    let d4 := writeU16 d3 (slotmetaloc + 2) 0
    let d5 := writeU16 d4 (slotmetaloc + 4) 0
    let d6 := writeU16 d5 NUMSLOTS_LOC (getNumSlots (Page.mk d5) - 1)
    let d7 := writeU16 d6 FIRSTOFFSET_LOC (getFirstOffset (Page.mk d6) + slotSize)
    (Page.mk d7, some ())
  | none => (p, none)

/-- Reachable pages: those produced from `Page::new` by any sequence of
`add_value` / `delete_value` calls. -/
inductive Reach : Page → Prop where
  | new (pid : Nat) : Reach (Page.new pid)
  | add {p p' : Page} {bytes : List Nat} {r : Option Nat} :
      Reach p → addValue p bytes = .ok (p', r) → Reach p'
  | del {p : Page} {slot : Nat} :
      Reach p → Reach (deleteValue p slot).1

/-! ## Field and Tuple (`common` crate, modelled from the spec) -/

/-- Modelled from the spec: the `Field` value type of the `common` crate (not
under src/): a tagged value with Int(i64), String, Decimal and Null kinds.
The `f64` payload of `Decimal` is modelled as a rational number.  (Named
`DbField` because Mathlib already owns the name `Field`.) -/
inductive DbField where
  | FInt (i : Int)
  | FStr (s : String)
  | FDecimal (q : ℚ)
  | FNull
deriving DecidableEq

/-- Modelled from the spec: the kind rank used to order fields of different
kinds (the spec only fixes the order within homogeneous kinds). -/
def fieldRank : DbField → Nat
  | .FInt _ => 0
  | .FStr _ => 1
  | .FDecimal _ => 2
  | .FNull => 3

/-- Modelled from the spec: the strict order on `Field` (`PartialOrd`): the
natural order within a kind, kind rank across kinds. -/
def fieldLt (a b : DbField) : Bool :=
  match a, b with
  | .FInt x, .FInt y => decide (x < y)
  | .FStr x, .FStr y => decide (x < y)
  | .FDecimal x, .FDecimal y => decide (x < y)
  | x, y => decide (fieldRank x < fieldRank y)

/-- Modelled from the spec: `Field` addition: exact for Int+Int, promoting
for mixed numerics, concatenation for strings, an error otherwise (the
caller's `expect` turns the error into a panic). -/
def fieldAdd : DbField → DbField → Option DbField
  | .FInt x, .FInt y => some (.FInt (x + y))
  | .FDecimal x, .FDecimal y => some (.FDecimal (x + y))
  | .FInt x, .FDecimal y => some (.FDecimal ((x : ℚ) + y))
  | .FDecimal x, .FInt y => some (.FDecimal (x + (y : ℚ)))
  | .FStr x, .FStr y => some (.FStr (x ++ y))
  | _, _ => none

/-- Modelled from the spec: `Field` division, defined for Decimal/Decimal
(the only shape the aggregate operator divides). -/
def fieldDiv : DbField → DbField → Option DbField
  | .FDecimal x, .FDecimal y => some (.FDecimal (x / y))
  | _, _ => none

/-- Modelled from the spec: `common::datatypes::f_decimal`. -/
def fDecimal (q : ℚ) : DbField := .FDecimal q

/-- Tuples are ordered sequences of fields; `Tuple::merge` is concatenation
(`++` below). -/
abbrev Tuple := List DbField

/-- The comparison operator of `nested_loop_join.rs` join conditions
(`common::BooleanOp`, modelled from the spec). -/
inductive BooleanOp where
  | Eq | Ne | Lt | Le | Gt | Ge
deriving DecidableEq

/-- Modelled from the spec: `common::datatypes::compare_fields`. -/
def compareFields (op : BooleanOp) (l r : DbField) : Bool :=
  match op with
  | .Eq => decide (l = r)
  | .Ne => decide (l ≠ r)
  | .Lt => fieldLt l r
  | .Le => fieldLt l r || decide (l = r)
  | .Gt => fieldLt r l
  | .Ge => fieldLt r l || decide (l = r)

/-- Association-list lookup (the `HashMap::get` of the operators and the
storage manager; the iteration order of the Rust map is unspecified, so
insertion order is as good as any). -/
def lookupA {κ υ : Type} [DecidableEq κ] : List (κ × υ) → κ → Option υ
  | [], _ => none
  | (k0, v0) :: rest, k => if k0 = k then some v0 else lookupA rest k

/-- Association-list update of an existing key (`HashMap` entry mutation). -/
def setA {κ υ : Type} [DecidableEq κ] : List (κ × υ) → κ → υ → List (κ × υ)
  | [], _, _ => []
  | (k0, v0) :: rest, k, v =>
    if k0 = k then (k0, v) :: rest else (k0, v0) :: setA rest k v

/-- Association-list removal (`HashMap::remove`). -/
def removeA {κ υ : Type} [DecidableEq κ] : List (κ × υ) → κ → List (κ × υ)
  | [], _ => []
  | (k0, v0) :: rest, k =>
    if k0 = k then rest else (k0, v0) :: removeA rest k

/-! ## NestedLoopJoin (`nested_loop_join.rs`) -/

/-- The `next` loop of `NestedLoopJoin`, run to exhaustion.  The arguments
mirror the operator state: `cur` is `current_tuple`, `leftRem` the tuples the
left child has not produced yet, `rightRem` the tuples the right child has
not produced yet; `rightAll` is what the right child replays after
`rewind()`.  Each emitted tuple is `left.merge(right)`. -/
def nljRun (op : BooleanOp) (leftExpr rightExpr : Tuple → DbField)
    (rightAll : List Tuple) :
    Option Tuple → List Tuple → List Tuple → List Tuple
  | none, _, _ => []
  | some leftTuple, leftRem, rightTuple :: rs =>
    if compareFields op (leftExpr leftTuple) (rightExpr rightTuple) then
      (leftTuple ++ rightTuple) ::
        nljRun op leftExpr rightExpr rightAll (some leftTuple) leftRem rs
    else nljRun op leftExpr rightExpr rightAll (some leftTuple) leftRem rs
  | some _, [], [] => []
  | some _, l2 :: ls, [] =>
    nljRun op leftExpr rightExpr rightAll (some l2) ls rightAll
termination_by _cur leftRem rightRem => (leftRem.length, rightRem.length)

/-- Full output of an opened `NestedLoopJoin`: `open` primes `current_tuple`
with the left child's first tuple, then `next` is called to exhaustion. -/
def nljOutput (op : BooleanOp) (leftExpr rightExpr : Tuple → DbField)
    (left right : List Tuple) : List Tuple :=
  match left with
  | [] => []
  | l :: ls => nljRun op leftExpr rightExpr right (some l) ls right

/-! ## HashEqJoin (`hash_join.rs`) -/

/-- One insertion of `HashEqJoin::open`: append the tuple to the bucket of
its key, creating the bucket on first use. -/
def hjInsert : List (DbField × List Tuple) → DbField → Tuple →
    List (DbField × List Tuple)
  | [], k, t => [(k, [t])]
  | (k0, v0) :: rest, k, t =>
    if k0 = k then (k0, v0 ++ [t]) :: rest
    else (k0, v0) :: hjInsert rest k t

/-- The left-hash construction of `HashEqJoin::open`: drain the left child
into a key → tuple-list multimap. -/
def buildLeftMap (leftExpr : Tuple → DbField) (left : List Tuple) :
    List (DbField × List Tuple) :=
  left.foldl (fun m t => hjInsert m (leftExpr t) t) []

/-- The `next` loop of `HashEqJoin`, run to exhaustion.  `cont` is the
fan-out continuation (`current_tuple`, `current_index`), `rightRem` the
tuples the right child has not produced yet.  A right tuple whose key has a
bucket emits the bucket entries in insertion order before the next right
tuple is pulled.  The `some []` bucket case cannot arise: buckets built by
`buildLeftMap` are never empty (`lookupA_buildLeftMap` below). -/
def hjRun (rightExpr : Tuple → DbField) (m : List (DbField × List Tuple)) :
    Option (Tuple × Nat) → List Tuple → List Tuple
  | some (rightTuple, idx), rightRem =>
    if h : idx < ((lookupA m (rightExpr rightTuple)).getD []).length then
      (((lookupA m (rightExpr rightTuple)).getD []).get ⟨idx, h⟩ ++ rightTuple) ::
        hjRun rightExpr m (some (rightTuple, idx + 1)) rightRem
    else hjRun rightExpr m none rightRem
  | none, [] => []
  | none, rightTuple :: rs =>
    match lookupA m (rightExpr rightTuple) with
    | some [] => hjRun rightExpr m none rs
    | some (l0 :: rest) =>
      (l0 ++ rightTuple) ::
        (if rest.isEmpty then hjRun rightExpr m none rs
         else hjRun rightExpr m (some (rightTuple, 1)) rs)
    | none => hjRun rightExpr m none rs
termination_by cont rightRem =>
  (rightRem.length,
    match cont with
    | some (rt, idx) => 1 + (((lookupA m (rightExpr rt)).getD []).length - idx)
    | none => 0)

/-- Full output of an opened `HashEqJoin`: the left hash is built during
`open`, then `next` is called to exhaustion. -/
def hjOutput (leftExpr rightExpr : Tuple → DbField) (left right : List Tuple) :
    List Tuple :=
  hjRun rightExpr (buildLeftMap leftExpr left) none right

/-! ## Aggregate (`aggregate.rs`) -/

/-- Sequencing of Rust calls whose panics and errors abort the caller. -/
def RustRes.bind {α β : Type} (x : RustRes α) (f : α → RustRes β) : RustRes β :=
  match x with
  | .ok a => f a
  | .panicked => .panicked
  | .errored => .errored

instance : Monad RustRes where
  pure := .ok
  bind := RustRes.bind

/-- The aggregate operations (`common::AggOp`, modelled from the spec). -/
inductive AggOp where
  | Min | Max | Sum | Count | Avg
deriving DecidableEq

/-- One per-aggregate state update of `merge_tuple_into_group`: `st` is the
inner vector `vec[idx]` (empty on a group's first tuple), `tupleVal` the
evaluated aggregate expression.  Count and Avg panic when the stored count is
not an Int; Sum and Avg panic (`expect`) when the field addition fails. -/
def updState (op : AggOp) (st : List DbField) (tupleVal : DbField) :
    RustRes (List DbField) :=
  match op with
  | .Min =>
    if st.isEmpty then .ok [tupleVal]
    else if fieldLt tupleVal (st.getD 0 .FNull) then .ok (st.set 0 tupleVal)
    else .ok st
  | .Max =>
    if st.isEmpty then .ok [tupleVal]
    else if fieldLt (st.getD 0 .FNull) tupleVal then .ok (st.set 0 tupleVal)
    else .ok st
  | .Count =>
    let st1 := if st.isEmpty then [DbField.FInt 0] else st
    match st1.getD 0 .FNull with
    | .FInt count => .ok (st1.set 0 (.FInt (count + 1)))
    | _ => .panicked
  | .Sum =>
    if st.isEmpty then .ok [tupleVal]
    else
      match fieldAdd tupleVal (st.getD 0 .FNull) with
      | some s => .ok (st.set 0 s)
      | none => .panicked
  | .Avg =>
    if st.isEmpty then .ok [DbField.FInt 1, tupleVal]
    else
      match st.getD 0 .FNull with
      | .FInt count =>
        match fieldAdd tupleVal (st.getD 1 .FNull) with
        | some s => .ok ((st.set 0 (.FInt (count + 1))).set 1 s)
        | none => .panicked
      | _ => .panicked

/-- The per-aggregate loop of `merge_tuple_into_group`: update state `i` with
the value of expression `i` on the tuple, for every aggregate.  The operator
constructor asserts `ops.len() == agg_expr.len()`, and the state vector is
created in lockstep, so the three lists always have equal length; the
catch-all case is unreachable. -/
def updStates : List AggOp → List (Tuple → DbField) → List (List DbField) →
    Tuple → RustRes (List (List DbField))
  | [], _, _, _ => .ok []
  | op :: ops, e :: es, st :: sts, t => do
    let st2 ← updState op st (e t)
    let rest ← updStates ops es sts t
    pure (st2 :: rest)
  | _ :: _, _, _, _ => .ok []

/-- `merge_tuple_into_group` of aggregate.rs: compute the group key, create
the (empty) per-aggregate states on a group's first tuple, then fold the
tuple into each state. -/
def mergeTupleIntoGroup (groupbyExpr : List (Tuple → DbField))
    (aggExpr : List (Tuple → DbField)) (ops : List AggOp)
    (hm : List (List DbField × List (List DbField))) (t : Tuple) :
    RustRes (List (List DbField × List (List DbField))) :=
  let groupkey := groupbyExpr.map fun e => e t
  match lookupA hm groupkey with
  | some sts => do
    let sts2 ← updStates ops aggExpr sts t
    pure (setA hm groupkey sts2)
  | none => do
    let sts2 ← updStates ops aggExpr (aggExpr.map fun _ => []) t
    pure (hm ++ [(groupkey, sts2)])

/-- The `open` drain of the Aggregate operator: fold every child tuple into
the group map. -/
def aggGroups (groupbyExpr aggExpr : List (Tuple → DbField)) (ops : List AggOp)
    (ts : List Tuple) :
    RustRes (List (List DbField × List (List DbField))) :=
  ts.foldl
    (fun acc t => acc.bind fun hm => mergeTupleIntoGroup groupbyExpr aggExpr ops hm t)
    (.ok [])

/-- The per-aggregate emission of `Aggregate::next`: a state of length > 1 is
an Avg pair (count, sum), both required to be Int and emitted as
decimal(sum) / decimal(count); a singleton state is emitted as is; an empty
state emits nothing. -/
def aggEmitField (aggResult : List DbField) : RustRes (Option DbField) :=
  if aggResult.length > 1 then
    match aggResult.getD 0 .FNull with
    | .FInt c =>
      match aggResult.getD 1 .FNull with
      | .FInt s =>
        match fieldDiv (fDecimal (s : ℚ)) (fDecimal (c : ℚ)) with
        | some avg => .ok (some avg)
        | none => .panicked
      | _ => .panicked
    | _ => .panicked
  else if aggResult.isEmpty then .ok none
  else .ok (some (aggResult.getD 0 .FNull))

/-- Emission of all aggregate fields of one group, in aggregate order. -/
def aggEmitFields : List (List DbField) → RustRes (List DbField)
  | [] => .ok []
  | st :: rest => do
    let f ← aggEmitField st
    let fs ← aggEmitFields rest
    match f with
    | some f0 => pure (f0 :: fs)
    | none => pure fs

/-- One result tuple of `Aggregate::next`: the group-key fields followed by
the emitted aggregate fields. -/
def aggEmitRow (key : List DbField) (sts : List (List DbField)) :
    RustRes Tuple := do
  let fs ← aggEmitFields sts
  pure (key ++ fs)

/-- Emission loop: one result tuple per group, in map-iteration order. -/
def aggEmitAll : List (List DbField × List (List DbField)) →
    RustRes (List Tuple)
  | [] => .ok []
  | (k, sts) :: rest => do
    let row ← aggEmitRow k sts
    let rows ← aggEmitAll rest
    pure (row :: rows)

/-- Full output of an opened Aggregate operator: `open` drains the child
into the group map, then `next` walks the map to exhaustion. -/
def aggOutput (groupbyExpr aggExpr : List (Tuple → DbField)) (ops : List AggOp)
    (ts : List Tuple) : RustRes (List Tuple) := do
  let hm ← aggGroups groupbyExpr aggExpr ops ts
  aggEmitAll hm

/-- Number of result tuples the Aggregate operator produces (none when the
run panics or errors). -/
def numOutputTuples (groupbyExpr aggExpr : List (Tuple → DbField))
    (ops : List AggOp) (ts : List Tuple) : Option Nat :=
  match aggOutput groupbyExpr aggExpr ops ts with
  | .ok rows => some rows.length
  | _ => none

/-! ## ValueId, HeapFile and HeapFileIterator -/

/-- The record identifier (`common::ids::ValueId`, modelled from the spec):
container id plus optional segment, page and slot ids; `segment_id` is
reserved and always `none`. -/
structure ValueId where
  containerId : Nat
  segmentId : Option Nat
  pageId : Option Nat
  slotId : Option Nat
deriving DecidableEq

/-- Modelled from the spec: a heap file's backing file, as its list of
pages; `num_pages()` is the list length (file length / PAGE_SIZE). -/
abbrev HeapFileData := List Page

/-- Modelled from the spec: `HeapFile::read_page_from_file(pid)` reads
exactly PAGE_SIZE bytes at `pid * PAGE_SIZE`; reading past the end of the
file is an I/O error. -/
def readPageFromFile (pages : HeapFileData) (pid : Nat) : RustRes Page :=
  if h : pid < pages.length then .ok (pages.get ⟨pid, h⟩) else .errored

/-- Modelled from the spec: `HeapFile::write_page_to_file(page)` writes the
page at `page_id * PAGE_SIZE`, overwriting the existing page or appending;
callers only ever write `page_id ≤ num_pages`. -/
def writePageToFile (pages : HeapFileData) (p : Page) : HeapFileData :=
  let pid := getPageId p
  if pid < pages.length then pages.set pid p else pages ++ [p]

/-- State of `HeapFileIterator` (heapfileiter.rs): the heap file, the
transaction-independent container id, the cursor fields `cur_pageid` and
`cur_slotid`, and the per-page iterator `cur_iter` (a page with its
`next_slot` position). -/
structure HFIterState where
  pages : HeapFileData
  containerId : Nat
  curPageid : Nat
  curSlotid : Nat
  curIter : Option (Page × Nat)

/-- `HeapFileIterator::new`: start at page 0, slot 0. -/
def hfIterNew (cid : Nat) (pages : HeapFileData) : HFIterState :=
  ⟨pages, cid, 0, 0, none⟩

/-- `HeapFileIterator::new_from`: start at the given (page, slot); the
source unwraps both options, so callers pass populated ids. -/
def hfIterNewFrom (cid : Nat) (pages : HeapFileData) (start : ValueId) :
    HFIterState :=
  ⟨pages, cid, start.pageId.getD 0, start.slotId.getD 0, none⟩

/-- `HeapPageIntoIter::next` of heap_page.rs: yield `(bytes, slot_id)` for
the next live slot at or after `next_slot`, together with the advanced
`next_slot`; skip deleted entries, stop at `total_slot_headers`.  The
structural `fuel` never runs out: `pageIterNext` supplies one more than the
header count, and the slot counter grows by one per skip. -/
def pageIterNextAux (page : Page) : Nat → Nat → Option ((List Nat × Nat) × Nat)
  | 0, _ => none
  | fuel + 1, nextSlot =>
    if nextSlot ≥ getTotalSlotHeaders page then none
    else
      match getValue page nextSlot with
      | some vec => some ((vec, nextSlot), nextSlot + 1)
      | none => pageIterNextAux page fuel (nextSlot + 1)

/-- Entry point of `HeapPageIntoIter::next`. -/
def pageIterNext (page : Page) (nextSlot : Nat) :
    Option ((List Nat × Nat) × Nat) :=
  pageIterNextAux page (getTotalSlotHeaders page + 1) nextSlot

/-- `Iterator::next` of heapfileiter.rs.  Note two quirks of the source kept
verbatim: the yielded `ValueId` carries `cur_slotid` (a running counter),
not the slot id the page iterator returned, and the end-of-page check
compares `cur_slotid + 1` against `get_num_slots` (the live count).  The
tail recursion advances `cur_pageid`, so the structural `fuel` (one more
than the page count at the entry point) never runs out. -/
def hfNextAux : Nat → HFIterState → Option ((List Nat × ValueId) × HFIterState)
  | 0, _ => none
  | fuel + 1, s =>
    if s.curPageid ≥ s.pages.length then none
    else
      let page := s.pages.getD s.curPageid (Page.new 0)
      let iter : Page × Nat :=
        if s.curSlotid = 0 then (page, 0)
        else
          match s.curIter with
          | none => (page, s.curSlotid)
          | some it => it
      match pageIterNext iter.1 iter.2 with
      | none =>
        hfNextAux fuel
          { s with curPageid := s.curPageid + 1, curSlotid := 0,
                   curIter := some iter }
      | some ((vec, _slotid), ns) =>
        let ourVal : ValueId :=
          ⟨s.containerId, none, some s.curPageid, some s.curSlotid⟩
        let s2 := { s with curIter := some (iter.1, ns) }
        let s3 :=
          if s.curSlotid + 1 = getNumSlots page then
            { s2 with curPageid := s.curPageid + 1, curSlotid := 0 }
          else { s2 with curSlotid := s.curSlotid + 1 }
        some ((vec, ourVal), s3)

/-- Entry point of `Iterator::next` for the heap-file iterator. -/
def hfNext (s : HFIterState) : Option ((List Nat × ValueId) × HFIterState) :=
  hfNextAux (s.pages.length + 1) s

/-- Run the heap-file iterator; `fuel` bounds the number of `next()` calls
(every use below supplies more than enough fuel to drain the file). -/
def hfRun : Nat → HFIterState → List (List Nat × ValueId)
  | 0, _ => []
  | fuel + 1, s =>
    match hfNext s with
    | none => []
    | some (item, s2) => item :: hfRun fuel s2

/-! ## StorageManager (`storage_manager.rs`) -/

/-- The file system seen by the storage manager, modelled from the spec:
existing directories, heap files (path to page list) and the JSON documents
written by `shutdown` (path to the decoded container map; the JSON encoding
itself is serde's and external to the sources). -/
structure FS where
  dirs : List String
  pageFiles : List (String × HeapFileData)
  jsonFiles : List (String × List (Nat × String))

/-- The StorageManager state: the storage directory and the
`container_to_hf` map from container id to backing-file path. -/
structure SM where
  storageDir : String
  containerToHf : List (Nat × String)

/-- Modelled from the spec: `HeapFile::new(path, _)` opens the backing file,
creating an empty one when the path does not exist. -/
def openHeapFile (fs : FS) (path : String) : FS × HeapFileData :=
  match lookupA fs.pageFiles path with
  | some pages => (fs, pages)
  | none => ({ fs with pageFiles := fs.pageFiles ++ [(path, [])] }, [])

/-- Store the (possibly changed) page list of a heap file back into the file
system. -/
def putHeapFile (fs : FS) (path : String) (pages : HeapFileData) : FS :=
  { fs with pageFiles := setA fs.pageFiles path pages }

/-- `StorageManager::delete_value`: look up the heap file (`unwrap` panics
when the container is unmapped), treat an absent page or slot id as a no-op
`Ok`, otherwise read the page (`?` propagates the read error), delete the
slot ignoring the result, and write the page back. -/
def smDeleteValue (sm : SM) (fs : FS) (id : ValueId) : RustRes FS :=
  match lookupA sm.containerToHf id.containerId with
  | none => .panicked
  | some hfName =>
    let ofs := openHeapFile fs hfName
    match id.pageId, id.slotId with
    | some pid, some sid =>
      (readPageFromFile ofs.2 pid).bind fun page =>
        let page2 := (deleteValue page sid).1
        .ok (putHeapFile ofs.1 hfName (writePageToFile ofs.2 page2))
    | _, _ => .ok ofs.1
  
/-- `StorageManager::remove_container`: `unwrap` panics when the container
is unmapped; otherwise the backing file is removed if it exists and the
mapping is dropped. -/
def smRemoveContainer (sm : SM) (fs : FS) (cid : Nat) : RustRes (SM × FS) :=
  match lookupA sm.containerToHf cid with
  | none => .panicked
  | some hfName =>
    let fs1 :=
      if (lookupA fs.pageFiles hfName).isSome then
        { fs with pageFiles := removeA fs.pageFiles hfName }
      else fs
    .ok ({ sm with containerToHf := removeA sm.containerToHf cid }, fs1)

/-- Page-search loop of `StorageManager::insert_value`: while no page
accepted the value and `working_pid < tot_pages`, advance and try the next
page; a read error breaks out of the loop (it can only happen at
`working_pid == tot_pages`). -/
def insertLoop (pages : HeapFileData) (bytes : List Nat) (workingPid : Nat)
    (page : Page) (pot : Option Nat) : RustRes (Nat × Page × Option Nat) :=
  if pot.isNone ∧ workingPid < pages.length then
    let wp2 := workingPid + 1
    match readPageFromFile pages wp2 with
    | .ok p2 =>
      match addValue p2 bytes with
      | .ok (p3, pot2) => insertLoop pages bytes wp2 p3 pot2
      | .panicked => .panicked
      | .errored => .errored
    | _ => .ok (wp2, page, pot)
  else .ok (workingPid, page, pot)
termination_by pages.length - workingPid
decreasing_by all_goals simp_all; omega

/-- `StorageManager::insert_value`: panic on values larger than a page,
`unwrap` panics when the container is unmapped; insert into the first page
with room, else append a page `Page::new(working_pid)`; the (possibly
unchanged) working page is always written back.  Returns the ValueId with
`page_id = working_pid` and `slot_id` as `add_value` returned it. -/
def smInsertValue (sm : SM) (fs : FS) (cid : Nat) (bytes : List Nat) :
    RustRes (FS × ValueId) :=
  if bytes.length > PAGE_SIZE then .panicked
  else
    match lookupA sm.containerToHf cid with
    | none => .panicked
    | some hfName =>
      let ofs := openHeapFile fs hfName
      let pages := ofs.2
      if pages.length = 0 then
        (addValue (Page.new 0) bytes).bind fun pr =>
          .ok (putHeapFile ofs.1 hfName (writePageToFile pages pr.1),
            ⟨cid, none, some 0, pr.2⟩)
      else
        (readPageFromFile pages 0).bind fun page0 =>
          (addValue page0 bytes).bind fun pr0 =>
            (insertLoop pages bytes 0 pr0.1 pr0.2).bind fun wpr =>
              let workingPid := wpr.1
              if workingPid = pages.length then
                (addValue (Page.new workingPid) bytes).bind fun prN =>
                  .ok (putHeapFile ofs.1 hfName (writePageToFile pages prN.1),
                    ⟨cid, none, some workingPid, prN.2⟩)
              else
                .ok (putHeapFile ofs.1 hfName (writePageToFile pages wpr.2.1),
                  ⟨cid, none, some workingPid, wpr.2.2⟩)

/-- `StorageManager::shutdown`: serialize the container map, with
`to_string_lossy` on each path (the identity on the Unicode paths of the
model), into `container_to_hf.json` inside the storage directory,
truncating any previous file. -/
def smShutdown (sm : SM) (fs : FS) : FS :=
  let serialized := sm.containerToHf.map fun kv => (kv.1, kv.2)
  let path := sm.storageDir ++ "/container_to_hf.json"
  if (lookupA fs.jsonFiles path).isSome then
    { fs with jsonFiles := setA fs.jsonFiles path serialized }
  else { fs with jsonFiles := fs.jsonFiles ++ [(path, serialized)] }

/-- `StorageManager::new(storage_dir)`: create the directory when missing
(starting empty); otherwise reload the map from `container_to_hf.json` when
that file exists, rebuilding each path with `PathBuf::from` (the identity on
the model's string paths). -/
def smNew (storageDir : String) (fs : FS) : SM × FS :=
  if storageDir ∈ fs.dirs then
    let path := storageDir ++ "/container_to_hf.json"
    match lookupA fs.jsonFiles path with
    | some entries =>
      (⟨storageDir, entries.map fun kv => (kv.1, kv.2)⟩, fs)
    | none => (⟨storageDir, []⟩, fs)
  else (⟨storageDir, []⟩, { fs with dirs := storageDir :: fs.dirs })

/-! ## Basic lemmas about the byte-store primitives -/

theorem upd_apply_self (d : Nat → Nat) (i v : Nat) : upd d i v i = v := by
  simp [upd]

theorem upd_apply_ne (d : Nat → Nat) (i v j : Nat) (h : j ≠ i) :
    upd d i v j = d j := by
  simp [upd, h]

theorem writeU16_apply_lo (d : Nat → Nat) (i v : Nat) :
    writeU16 d i v i = v % 256 := by
  simp [writeU16, upd]

theorem writeU16_apply_hi (d : Nat → Nat) (i v : Nat) :
    writeU16 d i v (i + 1) = v / 256 % 256 := by
  simp [writeU16, upd]

theorem writeU16_apply_ne (d : Nat → Nat) (i v j : Nat)
    (h1 : j ≠ i) (h2 : j ≠ i + 1) : writeU16 d i v j = d j := by
  simp [writeU16, upd, h1, h2]

theorem readU16_writeU16_self (d : Nat → Nat) (i v : Nat) :
    readU16 (writeU16 d i v) i = v % 65536 := by
  have h : v % (256 * 256) = v % 256 + 256 * (v / 256 % 256) := Nat.mod_mul
  simpa [readU16, writeU16_apply_lo, writeU16_apply_hi] using h.symm

theorem readU16_writeU16_self_small (d : Nat → Nat) (i v : Nat)
    (h : v < 65536) : readU16 (writeU16 d i v) i = v := by
  rw [readU16_writeU16_self, Nat.mod_eq_of_lt h]

theorem readU16_writeU16_ne (d : Nat → Nat) (i v j : Nat)
    (h : j + 1 < i ∨ i + 1 < j) : readU16 (writeU16 d i v) j = readU16 d j := by
  unfold readU16
  rw [writeU16_apply_ne d i v j (by omega) (by omega),
    writeU16_apply_ne d i v (j + 1) (by omega) (by omega)]

theorem fillZero_apply_in (d : Nat → Nat) (a b j : Nat)
    (h1 : a ≤ j) (h2 : j < b) : fillZero d a b j = 0 := by
  simp [fillZero, h1, h2]

theorem fillZero_apply_out (d : Nat → Nat) (a b j : Nat)
    (h : j < a ∨ b ≤ j) : fillZero d a b j = d j := by
  rcases h with h | h <;> simp [fillZero] <;> omega

theorem readU16_fillZero_out (d : Nat → Nat) (a b j : Nat)
    (h : j + 1 < a ∨ b ≤ j) : readU16 (fillZero d a b) j = readU16 d j := by
  unfold readU16
  rw [fillZero_apply_out d a b j (by omega), fillZero_apply_out d a b (j + 1) (by omega)]

theorem copyWithin_apply_in (d : Nat → Nat) (s e dst j : Nat)
    (h1 : dst ≤ j) (h2 : j < dst + (e - s)) :
    copyWithin d s e dst j = d (s + (j - dst)) := by
  simp [copyWithin, h1, h2]

theorem copyWithin_apply_out (d : Nat → Nat) (s e dst j : Nat)
    (h : j < dst ∨ dst + (e - s) ≤ j) : copyWithin d s e dst j = d j := by
  rcases h with h | h <;> simp [copyWithin] <;> omega

theorem readU16_copyWithin_out (d : Nat → Nat) (s e dst j : Nat)
    (h : j + 1 < dst ∨ dst + (e - s) ≤ j) :
    readU16 (copyWithin d s e dst) j = readU16 d j := by
  unfold readU16
  rw [copyWithin_apply_out d s e dst j (by omega),
    copyWithin_apply_out d s e dst (j + 1) (by omega)]

theorem writeBytes_apply_in (d : Nat → Nat) (a : Nat) (bs : List Nat) (j : Nat)
    (h1 : a ≤ j) (h2 : j < a + bs.length) :
    writeBytes d a bs j = bs.getD (j - a) 0 := by
  simp [writeBytes, h1, h2]

theorem writeBytes_apply_out (d : Nat → Nat) (a : Nat) (bs : List Nat) (j : Nat)
    (h : j < a ∨ a + bs.length ≤ j) : writeBytes d a bs j = d j := by
  rcases h with h | h <;> simp [writeBytes] <;> omega

theorem readU16_writeBytes_out (d : Nat → Nat) (a : Nat) (bs : List Nat) (j : Nat)
    (h : j + 1 < a ∨ a + bs.length ≤ j) :
    readU16 (writeBytes d a bs) j = readU16 d j := by
  unfold readU16
  rw [writeBytes_apply_out d a bs j (by omega),
    writeBytes_apply_out d a bs (j + 1) (by omega)]

/-! ## Lemmas about fresh pages -/

theorem getNumSlots_new (pid : Nat) : getNumSlots (Page.new pid) = 0 := by
  unfold getNumSlots Page.new NUMSLOTS_LOC
  rw [readU16_writeU16_ne _ _ _ _ (by omega)]
  simp [readU16]

theorem getTotalSlotHeaders_new (pid : Nat) :
    getTotalSlotHeaders (Page.new pid) = 0 := by
  unfold getTotalSlotHeaders Page.new TOTSLOTS_LOC
  rw [readU16_writeU16_ne _ _ _ _ (by omega)]
  simp [readU16]

theorem getFirstOffset_new (pid : Nat) :
    getFirstOffset (Page.new pid) = PAGE_SIZE := by
  unfold getFirstOffset Page.new FIRSTOFFSET_LOC
  rw [readU16_writeU16_ne _ _ _ _ (by omega)]
  simp [readU16]

theorem getFreeSpace_new (pid : Nat) :
    getFreeSpace (Page.new pid) = PAGE_SIZE - META_HEADER_SIZE := by
  unfold getFreeSpace getHeaderSize
  rw [getFirstOffset_new, getTotalSlotHeaders_new]
  simp

theorem getPageId_new (pid : Nat) : getPageId (Page.new pid) = pid % 65536 := by
  unfold getPageId Page.new PAGEID_LOC
  exact readU16_writeU16_self _ _ _

/-! ## Association-list lemmas -/

theorem lookupA_setA_self {κ υ : Type} [DecidableEq κ]
    (l : List (κ × υ)) (k : κ) (v : υ) (h : (lookupA l k).isSome) :
    lookupA (setA l k v) k = some v := by
  induction l with
  | nil => simp [lookupA] at h
  | cons kv rest ih =>
    by_cases hk : kv.1 = k
    · simp [lookupA, setA, hk]
    · simp only [lookupA, setA, hk, if_false] at h ⊢
      exact ih h

theorem lookupA_setA_ne {κ υ : Type} [DecidableEq κ]
    (l : List (κ × υ)) (k k2 : κ) (v : υ) (h : k2 ≠ k) :
    lookupA (setA l k v) k2 = lookupA l k2 := by
  induction l with
  | nil => simp [lookupA, setA]
  | cons kv rest ih =>
    by_cases hk : kv.1 = k
    · subst hk
      simp [lookupA, setA, Ne.symm h]
    · simp only [setA, hk, if_false, lookupA]
      by_cases hk2 : kv.1 = k2 <;> simp [hk2, ih]

theorem setA_lookup_self {κ υ : Type} [DecidableEq κ]
    (l : List (κ × υ)) (k : κ) (v : υ) (h : lookupA l k = some v) :
    setA l k v = l := by
  induction l with
  | nil => simp [lookupA] at h
  | cons kv rest ih =>
    by_cases hk : kv.1 = k
    · simp only [lookupA, hk, if_true] at h
      cases h
      simp only [setA, hk, if_true]
      rw [← hk]
    · simp only [lookupA, hk, if_false] at h
      simp [setA, hk, ih h]

theorem List.set_get_self {α : Type} (l : List α) (i : Nat) (h : i < l.length) :
    l.set i (l.get ⟨i, h⟩) = l := by
  induction l generalizing i with
  | nil => simp at h
  | cons a rest ih =>
    cases i with
    | zero => simp
    | succ n =>
      simp only [List.length_cons] at h
      have := ih n (by omega)
      simp only [List.get_eq_getElem] at this
      simp [List.set, this]

/-! ## Fixtures for concrete runs -/

/-- Fixture helper: apply `add_value` and keep the resulting page (every use
below succeeds). -/
def addOk (p : Page) (bs : List Nat) : Page :=
  match addValue p bs with
  | .ok pr => pr.1
  | _ => p

/-- Fixture: a page holding `[10]`, `[20]`, `[30]` at slots 0, 1, 2, with
slot 0 then deleted (live records: slot 1 ↦ `[20]`, slot 2 ↦ `[30]`). -/
def pC1 : Page :=
  (deleteValue (addOk (addOk (addOk (Page.new 0) [10]) [20]) [30]) 0).1

/-- Fixture: a page holding the single record `[1, 2, 3]` at slot 0. -/
def pageW : Page := addOk (Page.new 0) [1, 2, 3]

/-- Fixture: a storage manager with container 0 mapped to `d/heapfile0`. -/
def smFix : SM := ⟨"d", [(0, "d/heapfile0")]⟩

/-- Fixture: a file system whose `d/heapfile0` holds one page (`pageW`). -/
def fsOneVal : FS := ⟨["d"], [("d/heapfile0", [pageW])], []⟩

/-- Fixture: a file system whose `d/heapfile0` is empty (zero pages). -/
def fsEmptyHf : FS := ⟨["d"], [("d/heapfile0", [])], []⟩

/-! ## C1: heap-file iteration -/

/-- C1 (failing input): on a page whose slot 0 was deleted, the
HeapFileIterator yields the records stored at slots 1 and 2 but labels their
`ValueId`s with slot ids 0 and 1 — the claim that "each yielded ValueId
carries the record's actual page_id and slot_id" fails: the first yielded
ValueId addresses slot 0, where `get_value` finds nothing. -/
theorem c1_heapfile_iterator_failing_input :
    hfRun 10 (hfIterNew 7 [pC1]) =
      [([20], ⟨7, none, some 0, some 0⟩), ([30], ⟨7, none, some 0, some 1⟩)] ∧
    getValue pC1 0 = none ∧ getValue pC1 1 = some [20] ∧
    getValue pC1 2 = some [30] := by
  decide

/-! ## C2: `StorageManager::delete_value` -/

/-- C2 (amended): with the container mapped and its backing file present,
`delete_value` succeeds as a no-op when `page_id`/`slot_id` are absent, and
succeeds when the page exists — writing back an unchanged page when the slot
is missing — but returns an error (the propagated read error) when the
referenced page does not exist. -/
theorem c2_delete_value_spec (sm : SM) (fs : FS) (id : ValueId)
    (hfName : String) (pages : HeapFileData)
    (hmap : lookupA sm.containerToHf id.containerId = some hfName)
    (hfile : lookupA fs.pageFiles hfName = some pages) :
    ((id.pageId = none ∨ id.slotId = none) → smDeleteValue sm fs id = .ok fs)
    ∧ (∀ (pid sid : Nat) (hp : pid < pages.length),
        id.pageId = some pid → id.slotId = some sid →
        getPageId (pages.get ⟨pid, hp⟩) = pid →
        smDeleteValue sm fs id =
          .ok (putHeapFile fs hfName
            (writePageToFile pages (deleteValue (pages.get ⟨pid, hp⟩) sid).1))
        ∧ (getSlotMetaLoc (pages.get ⟨pid, hp⟩) sid = none →
            smDeleteValue sm fs id = .ok fs))
    ∧ (∀ pid sid, id.pageId = some pid → id.slotId = some sid →
        pages.length ≤ pid → smDeleteValue sm fs id = .errored) := by
  obtain ⟨cid, seg, pgid, slid⟩ := id
  simp only at hmap
  have hopen : openHeapFile fs hfName = (fs, pages) := by
    simp [openHeapFile, hfile]
  refine ⟨?_, ?_, ?_⟩
  · rintro (h | h) <;> subst h <;> simp [smDeleteValue, hmap, hopen]
  · rintro pid sid hp rfl rfl hpid
    have hread : readPageFromFile pages pid = .ok (pages.get ⟨pid, hp⟩) := by
      simp [readPageFromFile, hp]
    have hfirst : smDeleteValue sm fs ⟨cid, seg, some pid, some sid⟩ =
        .ok (putHeapFile fs hfName
          (writePageToFile pages (deleteValue (pages.get ⟨pid, hp⟩) sid).1)) := by
      simp [smDeleteValue, hmap, hopen, hread, RustRes.bind]
    refine ⟨hfirst, fun hmiss => ?_⟩
    have hdel : (deleteValue (pages.get ⟨pid, hp⟩) sid).1 = pages.get ⟨pid, hp⟩ := by
      unfold deleteValue
      rw [hmiss]
    have hwrite : writePageToFile pages (pages.get ⟨pid, hp⟩) = pages := by
      unfold writePageToFile
      rw [hpid, if_pos hp, List.set_get_self]
    have hput : putHeapFile fs hfName pages = fs := by
      unfold putHeapFile
      rw [setA_lookup_self _ _ _ hfile]
    rw [hfirst, hdel, hwrite, hput]
  · rintro pid sid rfl rfl hle
    have hread : readPageFromFile pages pid = .errored := by
      simp [readPageFromFile]
      omega
    simp [smDeleteValue, hmap, hopen, hread, RustRes.bind]

/-- C2 witness: concrete no-op successes of `delete_value` (absent slot on
an existing page; absent page id). -/
theorem c2_delete_value_spec_witness :
    smDeleteValue smFix fsOneVal ⟨0, none, some 0, some 5⟩ = .ok fsOneVal ∧
    smDeleteValue smFix fsOneVal ⟨0, none, none, none⟩ = .ok fsOneVal := by
  have h1 := c2_delete_value_spec smFix fsOneVal ⟨0, none, some 0, some 5⟩
    "d/heapfile0" [pageW] rfl rfl
  have h2 := c2_delete_value_spec smFix fsOneVal ⟨0, none, none, none⟩
    "d/heapfile0" [pageW] rfl rfl
  exact ⟨(h1.2.1 0 5 (by decide) rfl rfl (by decide)).2 (by decide),
    h2.1 (Or.inl rfl)⟩

/-- C2 counterexample: a `ValueId` referencing page 0 of an empty heap file
makes `delete_value` return an error — not the success the claim states. -/
theorem c2_delete_value_missing_page_errors :
    smDeleteValue smFix fsEmptyHf ⟨0, none, some 0, some 0⟩ = .errored := by
  rfl

/-! ## C3: Aggregate over an empty child -/

/-- C3 (amended): an empty child produces zero result tuples, with an empty
group-by list just as with a non-empty one: the group map stays empty, so
`next` immediately returns end-of-stream. -/
theorem c3_aggregate_empty_child (groupbyExpr aggExpr : List (Tuple → DbField))
    (ops : List AggOp) :
    aggOutput groupbyExpr aggExpr ops [] = .ok [] := rfl

/-- C3 counterexample: with no group-by expressions and an empty child the
operator yields 0 tuples, not the 1 tuple the claim states. -/
theorem c3_empty_child_counterexample :
    numOutputTuples [] [fun t => t.getD 0 .FNull] [.Count] [] = some 0 ∧
    numOutputTuples [] [fun t => t.getD 0 .FNull] [.Count] [] ≠ some 1 := by
  constructor
  · rfl
  · intro h
    simp [numOutputTuples, aggOutput] at h
    cases h

/-! ## C9: `StorageManager::remove_container` -/

/-- C9 (amended): `remove_container` on a container id that is not in the
map panics (`unwrap` on `None`) instead of succeeding as a no-op. -/
theorem c9_remove_container_absent_panics (sm : SM) (fs : FS) (cid : Nat)
    (h : lookupA sm.containerToHf cid = none) :
    smRemoveContainer sm fs cid = .panicked := by
  unfold smRemoveContainer
  rw [h]

/-- C9 witness: the amended theorem applied at a concrete state. -/
theorem c9_remove_container_absent_panics_witness :
    smRemoveContainer ⟨"d", []⟩ ⟨["d"], [], []⟩ 3 = .panicked :=
  c9_remove_container_absent_panics ⟨"d", []⟩ ⟨["d"], [], []⟩ 3 rfl

/-- C9 counterexample: removing an unmapped container panics rather than
succeeding without fault as the claim states. -/
theorem c9_remove_container_counterexample :
    smRemoveContainer ⟨"dir1", []⟩ ⟨["dir1"], [("f", [])], []⟩ 0 = .panicked :=
  rfl

/-! ## C10: `StorageManager::insert_value` of an oversized-but-page-sized value -/

/-- C10: a payload of length in (PAGE_SIZE − 14, PAGE_SIZE] inserted into a
container with an empty backing file neither panics nor errors: the fresh
page cannot hold it, yet the page is still written and the returned ValueId
has `page_id = 0` and `slot_id = none`. -/
theorem c10_insert_oversized_value (sm : SM) (fs : FS) (cid : Nat)
    (bytes : List Nat) (hfName : String)
    (hmap : lookupA sm.containerToHf cid = some hfName)
    (hfile : lookupA fs.pageFiles hfName = some [])
    (h1 : PAGE_SIZE - 14 < bytes.length) (h2 : bytes.length ≤ PAGE_SIZE) :
    smInsertValue sm fs cid bytes =
      .ok (putHeapFile fs hfName [Page.new 0], ⟨cid, none, some 0, none⟩) := by
  have hP : PAGE_SIZE = 4096 := rfl
  have hadd : addValue (Page.new 0) bytes = .ok (Page.new 0, none) := by
    unfold addValue
    rw [Nat.mod_eq_of_lt (by omega), getFreeSpace_new,
      if_neg (by simp only [hP, META_HEADER_SIZE]; omega)]
  have hopen : openHeapFile fs hfName = (fs, []) := by
    simp [openHeapFile, hfile]
  have hwrite : writePageToFile [] (Page.new 0) = [Page.new 0] := by
    simp [writePageToFile, getPageId_new]
  simp [smInsertValue, if_neg (by omega : ¬ bytes.length > PAGE_SIZE), hmap,
    hopen, hadd, RustRes.bind, hwrite]

/-- C10 witness: the theorem applied to a 4090-byte payload on a fresh
container. -/
theorem c10_insert_oversized_value_witness :
    smInsertValue smFix fsEmptyHf 0 (List.replicate 4090 7) =
      .ok (putHeapFile fsEmptyHf "d/heapfile0" [Page.new 0],
        ⟨0, none, some 0, none⟩) :=
  c10_insert_oversized_value smFix fsEmptyHf 0 (List.replicate 4090 7)
    "d/heapfile0" rfl rfl (by rw [List.length_replicate]; norm_num [PAGE_SIZE])
    (by rw [List.length_replicate]; norm_num [PAGE_SIZE])

/-! ## C8: shutdown / new round trip -/

theorem lookupA_append_of_none {κ υ : Type} [DecidableEq κ]
    (l : List (κ × υ)) (k : κ) (v : υ) (h : lookupA l k = none) :
    lookupA (l ++ [(k, v)]) k = some v := by
  induction l with
  | nil => simp [lookupA]
  | cons kv rest ih =>
    by_cases hk : kv.1 = k
    · simp [lookupA, hk] at h
    · simp only [lookupA, hk, if_false, List.cons_append] at h ⊢
      exact ih h

/-- C8: after `shutdown()` writes `container_to_hf.json` into the storage
directory, constructing a new StorageManager on the same directory restores
a container map that agrees with the pre-shutdown snapshot on every
container id.  The hypothesis is that the storage directory exists (as it
does for every manager built by `new`). -/
theorem c8_shutdown_new_round_trip (sm : SM) (fs : FS)
    (hdir : sm.storageDir ∈ fs.dirs) (c : Nat) :
    lookupA ((smNew sm.storageDir (smShutdown sm fs)).1).containerToHf c =
      lookupA sm.containerToHf c := by
  unfold smShutdown smNew
  by_cases hpresent :
      (lookupA fs.jsonFiles (sm.storageDir ++ "/container_to_hf.json")).isSome
  · rw [if_pos hpresent]
    simp only [hdir, if_pos]
    rw [lookupA_setA_self _ _ _ hpresent]
    simp
  · rw [if_neg hpresent]
    simp only [hdir, if_pos]
    have hnone : lookupA fs.jsonFiles (sm.storageDir ++ "/container_to_hf.json") = none := by
      cases hlook : lookupA fs.jsonFiles (sm.storageDir ++ "/container_to_hf.json") with
      | none => rfl
      | some v => rw [hlook] at hpresent; simp at hpresent
    rw [lookupA_append_of_none _ _ _ hnone]
    simp

/-- C8 witness: the round trip applied to a concrete two-container map. -/
theorem c8_shutdown_new_round_trip_witness :
    lookupA ((smNew "dir"
        (smShutdown ⟨"dir", [(3, "dir/heapfile3"), (1, "dir/heapfile1")]⟩
          ⟨["dir"], [], []⟩)).1).containerToHf 3 =
      lookupA (⟨"dir", [(3, "dir/heapfile3"), (1, "dir/heapfile1")]⟩ : SM).containerToHf 3 :=
  c8_shutdown_new_round_trip
    ⟨"dir", [(3, "dir/heapfile3"), (1, "dir/heapfile1")]⟩ ⟨["dir"], [], []⟩
    (by simp) 3

/-! ## C6: the Avg aggregate -/

/-- The group key of a tuple: every group-by expression evaluated on it. -/
def gbKey (gb : List (Tuple → DbField)) (t : Tuple) : List DbField :=
  gb.map fun e0 => e0 t

/-- The bag of input tuples belonging to group key `k`. -/
def groupOf (gb : List (Tuple → DbField)) (ts : List Tuple)
    (k : List DbField) : List Tuple :=
  ts.filter fun t2 => decide (gbKey gb t2 = k)

/-- Int payload of a field (0 on other kinds; only applied to Int fields). -/
def fieldToInt : DbField → Int
  | .FInt i => i
  | _ => 0

/-- Mathematical sum of an aggregate expression over a list of tuples. -/
def intSumE (e : Tuple → DbField) (ts : List Tuple) : Int :=
  (ts.map fun t => fieldToInt (e t)).sum

theorem lookupA_append_ne {κ υ : Type} [DecidableEq κ]
    (l : List (κ × υ)) (k0 k : κ) (v : υ) (h : k ≠ k0) :
    lookupA (l ++ [(k0, v)]) k = lookupA l k := by
  induction l with
  | nil => simp [lookupA, Ne.symm h]
  | cons kv rest ih =>
    by_cases hk : kv.1 = k <;> simp [lookupA, hk, ih]

theorem lookupA_none_not_mem {κ υ : Type} [DecidableEq κ]
    (l : List (κ × υ)) (k : κ) (h : lookupA l k = none) :
    k ∉ l.map Prod.fst := by
  induction l with
  | nil => simp
  | cons kv rest ih =>
    by_cases hk : kv.1 = k
    · simp [lookupA, hk] at h
    · simp only [lookupA, hk, if_false] at h
      simp [ih h, Ne.symm hk]

theorem mem_lookupA {κ υ : Type} [DecidableEq κ]
    (l : List (κ × υ)) (k : κ) (v : υ) (hmem : (k, v) ∈ l)
    (hnd : (l.map Prod.fst).Nodup) : lookupA l k = some v := by
  induction l with
  | nil => simp at hmem
  | cons kv rest ih =>
    simp only [List.map_cons, List.nodup_cons] at hnd
    rcases List.mem_cons.mp hmem with h | h
    · subst h
      simp [lookupA]
    · have hk : kv.1 ≠ k := by
        intro he
        exact hnd.1 (he ▸ (List.mem_map.mpr ⟨(k, v), h, rfl⟩))
      simp only [lookupA, hk, if_false]
      exact ih h hnd.2

theorem setA_keys {κ υ : Type} [DecidableEq κ]
    (l : List (κ × υ)) (k : κ) (v : υ) :
    (setA l k v).map Prod.fst = l.map Prod.fst := by
  induction l with
  | nil => simp [setA]
  | cons kv rest ih =>
    by_cases hk : kv.1 = k <;> simp [setA, hk, ih]

theorem RustRes.bind_def {α β : Type} (m : RustRes α) (f : α → RustRes β) :
    m >>= f = m.bind f := rfl

theorem RustRes.pure_eq_ok {α : Type} (a : α) : (pure a : RustRes α) = .ok a :=
  rfl

theorem RustRes.ok_bind {α β : Type} (a : α) (f : α → RustRes β) :
    RustRes.bind (.ok a) f = f a := rfl

theorem List.disjoint_singleton_right_of {α : Type} (l : List α) (a : α)
    (h : a ∉ l) : l.Disjoint [a] := by
  intro x hx hmem
  simp only [List.mem_singleton] at hmem
  exact h (hmem ▸ hx)

/-- Characterization of the Aggregate group map for a single Avg aggregate
over Int-valued inputs: the map's keys are exactly the distinct group keys,
and each state holds the running (count, sum) pair of its group. -/
theorem aggGroups_avg_char (gb : List (Tuple → DbField)) (e : Tuple → DbField)
    (ts : List Tuple) (hall : ∀ t ∈ ts, ∃ i, e t = .FInt i) :
    ∃ hm, aggGroups gb [e] [.Avg] ts = .ok hm ∧
      (hm.map Prod.fst).Nodup ∧
      ∀ k, lookupA hm k =
        if groupOf gb ts k = [] then none
        else some [[DbField.FInt ((groupOf gb ts k).length : Int),
                    DbField.FInt (intSumE e (groupOf gb ts k))]] := by
  induction ts using List.reverseRecOn with
  | nil =>
    refine ⟨[], rfl, by simp, fun k => ?_⟩
    simp [lookupA, groupOf]
  | append_singleton ts t ih =>
    obtain ⟨hm, hgroups, hnd, hchar⟩ :=
      ih (fun t2 ht2 => hall t2 (List.mem_append_left _ ht2))
    obtain ⟨v, hv⟩ := hall t (List.mem_append_right _ (List.mem_singleton_self t))
    have hstep : aggGroups gb [e] [.Avg] (ts ++ [t]) =
        (aggGroups gb [e] [.Avg] ts).bind
          fun hm2 => mergeTupleIntoGroup gb [e] [.Avg] hm2 t := by
      unfold aggGroups
      rw [List.foldl_append]
      rfl
    rw [hstep, hgroups, RustRes.ok_bind]
    have hkey : (gb.map fun e0 => e0 t) = gbKey gb t := rfl
    have hself : groupOf gb (ts ++ [t]) (gbKey gb t) =
        groupOf gb ts (gbKey gb t) ++ [t] := by
      unfold groupOf
      rw [List.filter_append]
      simp
    have hother : ∀ k, k ≠ gbKey gb t →
        groupOf gb (ts ++ [t]) k = groupOf gb ts k := by
      intro k hk
      unfold groupOf
      rw [List.filter_append]
      have hne : ¬ gbKey gb t = k := fun he => hk he.symm
      simp [hne]
    by_cases hl : groupOf gb ts (gbKey gb t) = []
    · have hnone : lookupA hm (gbKey gb t) = none := by
        rw [hchar, if_pos hl]
      refine ⟨hm ++ [(gbKey gb t, [[DbField.FInt 1, DbField.FInt v]])], ?_, ?_, ?_⟩
      · simp [mergeTupleIntoGroup, hkey, hnone, updStates, updState, hv,
          RustRes.bind_def, RustRes.bind, RustRes.pure_eq_ok]
      · simp only [List.map_append, List.map_cons, List.map_nil]
        rw [List.nodup_append]
        exact ⟨hnd, List.nodup_singleton _,
          List.disjoint_singleton_right_of _ _ (lookupA_none_not_mem hm _ hnone)⟩
      · intro k
        by_cases hk : k = gbKey gb t
        · subst hk
          rw [lookupA_append_of_none _ _ _ hnone, hself, hl]
          simp [intSumE, fieldToInt, hv]
        · rw [lookupA_append_ne _ _ _ _ hk, hother k hk, hchar]
    · have hsome : lookupA hm (gbKey gb t) =
          some [[DbField.FInt ((groupOf gb ts (gbKey gb t)).length : Int),
                 DbField.FInt (intSumE e (groupOf gb ts (gbKey gb t)))]] := by
        rw [hchar, if_neg hl]
      refine ⟨setA hm (gbKey gb t)
          [[DbField.FInt ((groupOf gb ts (gbKey gb t)).length + 1),
            DbField.FInt (v + intSumE e (groupOf gb ts (gbKey gb t)))]], ?_, ?_, ?_⟩
      · simp [mergeTupleIntoGroup, hkey, hsome, updStates, updState, hv,
          RustRes.bind_def, RustRes.bind, RustRes.pure_eq_ok, fieldAdd, List.set]
      · rw [setA_keys]
        exact hnd
      · intro k
        by_cases hk : k = gbKey gb t
        · subst hk
          rw [lookupA_setA_self _ _ _ (by rw [hsome]; rfl), hself]
          have hne : ¬ groupOf gb ts (gbKey gb t) ++ [t] = [] := by simp
          rw [if_neg hne]
          have hsum : intSumE e (groupOf gb ts (gbKey gb t) ++ [t]) =
              v + intSumE e (groupOf gb ts (gbKey gb t)) := by
            unfold intSumE
            rw [List.map_append, List.sum_append]
            simp [fieldToInt, hv]
            ring
          rw [hsum]
          simp only [List.length_append, List.length_singleton]
          norm_num
        · rw [lookupA_setA_ne _ _ _ _ hk, hother k hk, hchar]

/-- C6 (amended): for every group the Aggregate operator produces with an
Avg aggregate over Int-valued aggregate expressions, the emitted field is
decimal(sum of the expression over the group's tuples) divided by
decimal(the group's tuple count); every produced group is non-empty. -/
theorem c6_avg_aggregate (gb : List (Tuple → DbField)) (e : Tuple → DbField)
    (ts : List Tuple) (hm : List (List DbField × List (List DbField)))
    (hall : ∀ t ∈ ts, ∃ i, e t = .FInt i)
    (hgroups : aggGroups gb [e] [.Avg] ts = .ok hm)
    (k : List DbField) (sts : List (List DbField)) (hmem : (k, sts) ∈ hm) :
    aggEmitRow k sts =
      .ok (k ++ [fDecimal ((intSumE e (groupOf gb ts k) : ℚ) /
        ((groupOf gb ts k).length : ℚ))]) ∧
    groupOf gb ts k ≠ [] := by
  obtain ⟨hm2, hg2, hnd, hchar⟩ := aggGroups_avg_char gb e ts hall
  rw [hgroups] at hg2
  have hmm : hm2 = hm := by
    cases hg2
    rfl
  subst hmm
  have hlk := mem_lookupA hm2 k sts hmem hnd
  rw [hchar] at hlk
  by_cases hg : groupOf gb ts k = []
  · rw [if_pos hg] at hlk
    cases hlk
  · rw [if_neg hg] at hlk
    have hsts : sts = [[DbField.FInt ((groupOf gb ts k).length : Int),
        DbField.FInt (intSumE e (groupOf gb ts k))]] := by
      cases hlk
      rfl
    subst hsts
    refine ⟨?_, hg⟩
    simp [aggEmitRow, aggEmitFields, aggEmitField, fieldDiv, fDecimal,
      RustRes.bind_def, RustRes.bind, RustRes.pure_eq_ok]

/-- C6 witness: the Avg theorem applied to two Int rows (count 2, sum 3). -/
theorem c6_avg_aggregate_witness :
    aggEmitRow [] [[DbField.FInt 2, DbField.FInt 3]] =
      .ok ([] ++ [fDecimal ((intSumE (fun t => t.getD 0 .FNull)
          (groupOf [] [[DbField.FInt 1], [DbField.FInt 2]] []) : ℚ) /
        ((groupOf [] [[DbField.FInt 1], [DbField.FInt 2]] []).length : ℚ))]) ∧
    groupOf [] [[DbField.FInt 1], [DbField.FInt 2]] [] ≠ [] :=
  c6_avg_aggregate [] (fun t => t.getD 0 .FNull)
    [[DbField.FInt 1], [DbField.FInt 2]] [([], [[DbField.FInt 2, DbField.FInt 3]])]
    (by
      intro t ht
      simp only [List.mem_cons, List.not_mem_nil, or_false] at ht
      rcases ht with rfl | rfl
      · exact ⟨1, rfl⟩
      · exact ⟨2, rfl⟩)
    rfl [] [[DbField.FInt 2, DbField.FInt 3]] (by simp)

/-- C6 counterexample: a Decimal-valued aggregate expression is summable
(Sum would accept it), yet Avg panics at emission instead of emitting
decimal(sum)/decimal(count). -/
theorem c6_avg_decimal_counterexample :
    aggOutput [] [fun _ => DbField.FDecimal 1] [.Avg] [[DbField.FNull]] =
      .panicked ∧
    aggOutput [] [fun _ => DbField.FDecimal 1] [.Avg] [[DbField.FNull]] ≠
      .ok [[fDecimal 1]] := by
  refine ⟨rfl, ?_⟩
  intro h
  rw [(rfl : aggOutput [] [fun _ => DbField.FDecimal 1] [.Avg] [[DbField.FNull]] =
    .panicked)] at h
  cases h

/-! ## C7: hash equi-join vs nested-loop equi-join -/

theorem lookupA_hjInsert_self (m : List (DbField × List Tuple)) (k : DbField)
    (t : Tuple) :
    lookupA (hjInsert m k t) k = some ((lookupA m k).getD [] ++ [t]) := by
  induction m with
  | nil => simp [hjInsert, lookupA]
  | cons kv rest ih =>
    by_cases hk : kv.1 = k
    · simp [hjInsert, lookupA, hk]
    · simp [hjInsert, lookupA, hk, ih]

theorem lookupA_hjInsert_ne (m : List (DbField × List Tuple)) (k k2 : DbField)
    (t : Tuple) (h : k2 ≠ k) :
    lookupA (hjInsert m k t) k2 = lookupA m k2 := by
  induction m with
  | nil => simp [hjInsert, lookupA, Ne.symm h]
  | cons kv rest ih =>
    by_cases hk : kv.1 = k
    · subst hk
      simp [hjInsert, lookupA, Ne.symm h]
    · simp only [hjInsert, hk, if_false, lookupA]
      by_cases hk2 : kv.1 = k2 <;> simp [hk2, ih]

/-- The bucket of key `k` after draining the left child holds exactly the
left tuples whose key is `k`, in arrival order. -/
theorem bucket_buildLeftMap (keyL : Tuple → DbField) (left : List Tuple)
    (k : DbField) :
    (lookupA (buildLeftMap keyL left) k).getD [] =
      left.filter fun l => decide (keyL l = k) := by
  suffices h : ∀ (ts : List Tuple) (m : List (DbField × List Tuple)) (k : DbField),
      (lookupA (ts.foldl (fun m2 t => hjInsert m2 (keyL t) t) m) k).getD [] =
        (lookupA m k).getD [] ++ ts.filter fun l => decide (keyL l = k) by
    have h2 := h left [] k
    simpa [lookupA] using h2
  intro ts
  induction ts with
  | nil => simp
  | cons t rest ih =>
    intro m k
    simp only [List.foldl_cons, List.filter_cons]
    by_cases hk : keyL t = k
    · rw [ih]
      simp [hk, lookupA_hjInsert_self]
    · rw [ih]
      rw [lookupA_hjInsert_ne _ _ _ _ (fun he => hk he.symm)]
      simp [hk]

/-- A key is absent from the left hash exactly when no left tuple carries
it; in particular every present bucket is non-empty. -/
theorem lookupA_buildLeftMap_none_iff (keyL : Tuple → DbField)
    (left : List Tuple) (k : DbField) :
    lookupA (buildLeftMap keyL left) k = none ↔
      (left.filter fun l => decide (keyL l = k)) = [] := by
  suffices h : ∀ (ts : List Tuple) (m : List (DbField × List Tuple)) (k : DbField),
      lookupA (ts.foldl (fun m2 t => hjInsert m2 (keyL t) t) m) k = none ↔
        lookupA m k = none ∧ (ts.filter fun l => decide (keyL l = k)) = [] by
    have h2 := h left [] k
    simpa [lookupA] using h2
  intro ts
  induction ts with
  | nil => simp
  | cons t rest ih =>
    intro m k
    simp only [List.foldl_cons, List.filter_cons]
    by_cases hk : keyL t = k
    · subst hk
      rw [ih]
      simp [lookupA_hjInsert_self]
    · rw [ih]
      rw [lookupA_hjInsert_ne _ _ _ _ (fun he => hk he.symm)]
      simp [hk]

/-- Flushing the fan-out continuation emits the rest of the bucket, merged
with the pending right tuple, before right-child consumption resumes. -/
theorem hjRun_cont (rightExpr : Tuple → DbField)
    (m : List (DbField × List Tuple)) :
    ∀ (n idx : Nat) (rt : Tuple) (rs : List Tuple),
      ((lookupA m (rightExpr rt)).getD []).length - idx = n →
      hjRun rightExpr m (some (rt, idx)) rs =
        ((((lookupA m (rightExpr rt)).getD []).drop idx).map fun l => l ++ rt)
          ++ hjRun rightExpr m none rs := by
  intro n
  induction n with
  | zero =>
    intro idx rt rs hn
    rw [hjRun]
    rw [dif_neg (by omega)]
    rw [List.drop_eq_nil_of_le (by omega)]
    simp
  | succ n ih =>
    intro idx rt rs hn
    have hlt : idx < ((lookupA m (rightExpr rt)).getD []).length := by omega
    rw [hjRun]
    rw [dif_pos hlt]
    rw [ih (idx + 1) rt rs (by omega)]
    rw [List.drop_eq_getElem_cons hlt, List.map_cons, List.cons_append]
    simp [List.get_eq_getElem]

/-- The hash-join `next` loop, run from a clean state, emits for each right
tuple (in right order) the matching bucket merged with it. -/
theorem hjRun_none (rightExpr : Tuple → DbField)
    (m : List (DbField × List Tuple)) :
    ∀ rs : List Tuple,
      hjRun rightExpr m none rs =
        rs.bind fun r => ((lookupA m (rightExpr r)).getD []).map fun l => l ++ r := by
  intro rs
  induction rs with
  | nil =>
    rw [hjRun]
    simp
  | cons r rs2 ih =>
    rw [hjRun]
    cases hlook : lookupA m (rightExpr r) with
    | none =>
      simp only [List.cons_bind, hlook, Option.getD_none, List.map_nil,
        List.nil_append]
      exact ih
    | some vec =>
      cases vec with
      | nil =>
        simp only [List.cons_bind, hlook, Option.getD_some, List.map_nil,
          List.nil_append]
        exact ih
      | cons l0 rest =>
        by_cases hrest : rest.isEmpty
        · have hr : rest = [] := by
            cases rest
            · rfl
            · simp [List.isEmpty] at hrest
          subst hr
          simp only [hrest, if_true, List.cons_bind, hlook, Option.getD_some,
            List.map_cons, List.map_nil, List.cons_append, List.nil_append]
          rw [ih]
        · simp only [hrest, if_false]
          rw [hjRun_cont rightExpr m
            (((lookupA m (rightExpr r)).getD []).length - 1) 1 r rs2 rfl]
          rw [ih]
          simp [hlook, List.cons_bind]

/-- Functional form of the hash-equi-join output. -/
theorem hjOutput_eq (leftExpr rightExpr : Tuple → DbField)
    (left right : List Tuple) :
    hjOutput leftExpr rightExpr left right =
      right.bind fun r =>
        (left.filter fun l => decide (leftExpr l = rightExpr r)).map
          fun l => l ++ r := by
  unfold hjOutput
  rw [hjRun_none]
  refine List.bind_congr ?_
  intro r _
  rw [bucket_buildLeftMap]

/-- The nested-loop `next` loop emits, for the held left tuple, its matches
among the remaining right tuples, then proceeds with the remaining left
tuples against the full (rewound) right input. -/
theorem nljRun_eq (op : BooleanOp) (leftExpr rightExpr : Tuple → DbField)
    (rightAll : List Tuple) :
    ∀ (ls : List Tuple) (l : Tuple) (rs : List Tuple),
      nljRun op leftExpr rightExpr rightAll (some l) ls rs =
        ((rs.filter fun r => compareFields op (leftExpr l) (rightExpr r)).map
          fun r => l ++ r)
        ++ (ls.bind fun l2 =>
          (rightAll.filter fun r =>
            compareFields op (leftExpr l2) (rightExpr r)).map fun r => l2 ++ r) := by
  intro ls
  induction ls with
  | nil =>
    intro l rs
    induction rs with
    | nil =>
      rw [nljRun]
      simp
    | cons r rs2 ih =>
      rw [nljRun]
      by_cases hc : compareFields op (leftExpr l) (rightExpr r)
      · simp only [hc, if_true, List.filter_cons, List.map_cons, ih]
        simp [hc]
      · simp only [hc, if_false, List.filter_cons, ih]
        simp [hc]
  | cons l2 ls2 ih =>
    intro l rs
    induction rs with
    | nil =>
      rw [nljRun]
      simp only [List.filter_nil, List.map_nil, List.nil_append, List.cons_bind]
      exact ih l2 rightAll
    | cons r rs2 ih2 =>
      rw [nljRun]
      by_cases hc : compareFields op (leftExpr l) (rightExpr r)
      · simp only [hc, if_true, List.filter_cons, List.map_cons, ih2]
        simp [hc]
      · simp only [hc, if_false, List.filter_cons, ih2]
        simp [hc]

/-- Functional form of the nested-loop-join output. -/
theorem nljOutput_eq (op : BooleanOp) (leftExpr rightExpr : Tuple → DbField)
    (left right : List Tuple) :
    nljOutput op leftExpr rightExpr left right =
      left.bind fun l =>
        (right.filter fun r => compareFields op (leftExpr l) (rightExpr r)).map
          fun r => l ++ r := by
  cases left with
  | nil => rfl
  | cons l ls =>
    show nljRun op leftExpr rightExpr right (some l) ls right = _
    rw [nljRun_eq]
    simp [List.cons_bind]

theorem coe_filter_map_bind {α β : Type} (rs : List α) (p : α → Bool)
    (g : α → β) :
    (((rs.filter p).map g : List β) : Multiset β) =
      (rs : Multiset α).bind fun r => if p r then {g r} else 0 := by
  induction rs with
  | nil => simp
  | cons r rs2 ih =>
    rw [List.filter_cons, ← Multiset.cons_coe, Multiset.cons_bind]
    by_cases hp : p r
    · simp only [hp, if_true, List.map_cons, ← Multiset.cons_coe, ih]
      rw [← Multiset.singleton_add]
    · simp only [hp, if_false, ih, Bool.false_eq_true,
        if_neg (fun h => hp h)]
      rw [zero_add]

/-- C7: over the same children and key expressions, the hash equi-join and
the nested-loop join with the `Eq` comparison produce the same multiset of
merged output tuples. -/
theorem c7_hash_join_matches_nested_loop_join
    (leftExpr rightExpr : Tuple → DbField) (left right : List Tuple) :
    (hjOutput leftExpr rightExpr left right : Multiset Tuple) =
      (nljOutput .Eq leftExpr rightExpr left right : Multiset Tuple) := by
  rw [hjOutput_eq, nljOutput_eq]
  rw [← Multiset.coe_bind, ← Multiset.coe_bind]
  have hL : (↑right : Multiset Tuple).bind
        (fun r => ↑((left.filter fun l => decide (leftExpr l = rightExpr r)).map
          fun l => l ++ r)) =
      (↑right : Multiset Tuple).bind fun r => (↑left : Multiset Tuple).bind
        fun l => if decide (leftExpr l = rightExpr r) then {l ++ r} else 0 := by
    refine Multiset.bind_congr ?_
    intro r _
    exact coe_filter_map_bind left _ _
  have hR : (↑left : Multiset Tuple).bind
        (fun l => ↑((right.filter fun r =>
          compareFields .Eq (leftExpr l) (rightExpr r)).map fun r => l ++ r)) =
      (↑left : Multiset Tuple).bind fun l => (↑right : Multiset Tuple).bind
        fun r => if decide (leftExpr l = rightExpr r) then {l ++ r} else 0 := by
    refine Multiset.bind_congr ?_
    intro l _
    exact coe_filter_map_bind right _ _
  rw [hL, hR]
  exact Multiset.bind_bind (right : Multiset Tuple) (left : Multiset Tuple)

/-! ## C4 and C5: abstract view of a slotted page

A page reachable from `Page::new` by `add_value`/`delete_value` is abstracted
by its directory: a list of entries in directory order, each either a zeroed
(deleted) header or a live record with its slot id and payload bytes.  The
relation `RelA` ties the abstraction to the byte contents; `WfA` captures
the well-formedness facts (distinct ids, space bound, identity ids while no
header was ever deleted) that the operations preserve. -/

/-- Abstract directory entry. -/
inductive DEntry where
  | dead
  | live (id : Nat) (bytes : List Nat)
deriving DecidableEq

/-- Payload size of an abstract entry (0 for a deleted header). -/
def entrySizeA : DEntry → Nat
  | .dead => 0
  | .live _ bs => bs.length

/-- Byte location of directory entry `i`. -/
def hdrLoc (i : Nat) : Nat :=
  META_HEADER_SIZE + SLOT_META_SIZE * i

/-- Sum of payload sizes of the entries before index `i` (deleted headers
contribute 0, so this is the live-payload prefix sum). -/
def sizesBefore (a : List DEntry) (i : Nat) : Nat :=
  ((a.take i).map entrySizeA).sum

/-- Total live-payload size. -/
def totalSizeA (a : List DEntry) : Nat :=
  (a.map entrySizeA).sum

/-- Payload-window top (the directory `offset` field) of entry `i`:
payloads pack downward from the page end in directory order. -/
def offA (a : List DEntry) (i : Nat) : Nat :=
  PAGE_SIZE - sizesBefore a i

/-- The live slot ids, in directory order. -/
def liveIdsA (a : List DEntry) : List Nat :=
  a.filterMap fun e =>
    match e with
    | .live id _ => some id
    | .dead => none

/-- Number of live entries. -/
def numA (a : List DEntry) : Nat :=
  (liveIdsA a).length

/-- Index of the first live entry carrying slot id `slot`. -/
def findLiveIdx (slot : Nat) : List DEntry → Option Nat
  | [] => none
  | .dead :: rest => (findLiveIdx slot rest).map (· + 1)
  | .live id _ :: rest =>
    if id = slot then some 0 else (findLiveIdx slot rest).map (· + 1)

/-- Payload of the entry at index `j`, when live. -/
def liveBytesAt (a : List DEntry) (j : Nat) : Option (List Nat) :=
  match a.get? j with
  | some (.live _ bs) => some bs
  | _ => none

theorem sizesBefore_zero (a : List DEntry) : sizesBefore a 0 = 0 := by
  simp [sizesBefore]

theorem sizesBefore_succ (a : List DEntry) (i : Nat) (h : i < a.length) :
    sizesBefore a (i + 1) = sizesBefore a i + entrySizeA (a.get ⟨i, h⟩) := by
  unfold sizesBefore
  rw [List.take_succ]
  have hgt : a[i]? = some (a.get ⟨i, h⟩) := by
    rw [List.getElem?_eq_getElem h]
    rfl
  rw [hgt]
  simp only [Option.toList_some, List.map_append, List.sum_append,
    List.map_cons, List.map_nil, List.sum_cons, List.sum_nil]
  omega

theorem sizesBefore_mono (a : List DEntry) (i j : Nat) (h : i ≤ j) :
    sizesBefore a i ≤ sizesBefore a j := by
  unfold sizesBefore
  have h1 : (a.take j).take i = a.take i := by
    rw [List.take_take, min_eq_left h]
  rw [← h1]
  conv_rhs => rw [← List.take_append_drop i (a.take j)]
  rw [List.map_append, List.sum_append]
  exact Nat.le_add_right _ _

theorem sizesBefore_le_total (a : List DEntry) (i : Nat) :
    sizesBefore a i ≤ totalSizeA a := by
  unfold sizesBefore totalSizeA
  conv_rhs => rw [← List.take_append_drop i a]
  rw [List.map_append, List.sum_append]
  exact Nat.le_add_right _ _

theorem sizesBefore_length (a : List DEntry) :
    sizesBefore a a.length = totalSizeA a := by
  unfold sizesBefore totalSizeA
  rw [List.take_length]

theorem sizesBefore_of_le_length (a : List DEntry) (i : Nat)
    (h : a.length ≤ i) : sizesBefore a i = totalSizeA a := by
  unfold sizesBefore totalSizeA
  rw [List.take_of_length_le h]

theorem mem_liveIdsA_of_get (a : List DEntry) (i : Nat) (h : i < a.length)
    (id : Nat) (bs : List Nat) (hget : a.get ⟨i, h⟩ = .live id bs) :
    id ∈ liveIdsA a := by
  unfold liveIdsA
  refine List.mem_filterMap.mpr ⟨.live id bs, ?_, rfl⟩
  rw [← hget]
  exact List.get_mem a i h

theorem exists_get_of_mem_liveIdsA (a : List DEntry) (id : Nat)
    (hmem : id ∈ liveIdsA a) :
    ∃ (i : Nat) (h : i < a.length) (bs : List Nat),
      a.get ⟨i, h⟩ = .live id bs := by
  unfold liveIdsA at hmem
  obtain ⟨e, he, hmap⟩ := List.mem_filterMap.mp hmem
  obtain ⟨j, hjlt, hj⟩ := List.getElem_of_mem he
  cases e with
  | dead => cases hmap
  | live id2 bs =>
    simp only [Option.some.injEq] at hmap
    refine ⟨j, hjlt, bs, ?_⟩
    rw [List.get_eq_getElem, hj, hmap]

theorem findLiveIdx_none_iff (slot : Nat) (a : List DEntry) :
    findLiveIdx slot a = none ↔ slot ∉ liveIdsA a := by
  induction a with
  | nil => simp [findLiveIdx, liveIdsA]
  | cons e rest ih =>
    cases e with
    | dead =>
      simp only [findLiveIdx, liveIdsA, List.filterMap_cons]
      rw [Option.map_eq_none']
      exact ih
    | live id bs =>
      by_cases hid : id = slot
      · subst hid
        simp [findLiveIdx, liveIdsA, List.filterMap_cons]
      · simp only [findLiveIdx, hid, if_false, liveIdsA, List.filterMap_cons,
          List.mem_cons]
        rw [Option.map_eq_none']
        unfold liveIdsA at ih
        rw [ih]
        constructor
        · intro hn hor
          rcases hor with he | hmem
          · exact hid he.symm
          · exact hn hmem
        · intro hn hmem
          exact hn (Or.inr hmem)

theorem findLiveIdx_some (slot : Nat) (a : List DEntry) (j : Nat)
    (hfind : findLiveIdx slot a = some j) :
    ∃ (h : j < a.length) (bs : List Nat), a.get ⟨j, h⟩ = .live slot bs := by
  induction a generalizing j with
  | nil => cases hfind
  | cons e rest ih =>
    cases e with
    | dead =>
      simp only [findLiveIdx] at hfind
      obtain ⟨j2, hj2, rfl⟩ := Option.map_eq_some'.mp hfind
      obtain ⟨h2, bs, hget⟩ := ih j2 hj2
      exact ⟨by simpa using Nat.succ_lt_succ h2, bs, hget⟩
    | live id bs =>
      by_cases hid : id = slot
      · subst hid
        have hf0 : findLiveIdx id (DEntry.live id bs :: rest) = some 0 := by
          simp [findLiveIdx]
        rw [hf0] at hfind
        cases hfind
        exact ⟨by simp, bs, rfl⟩
      · simp only [findLiveIdx, hid, if_false] at hfind
        obtain ⟨j2, hj2, rfl⟩ := Option.map_eq_some'.mp hfind
        obtain ⟨h2, bs2, hget⟩ := ih j2 hj2
        exact ⟨by simpa using Nat.succ_lt_succ h2, bs2, hget⟩

theorem findLiveIdx_of_get (slot : Nat) (a : List DEntry) (i : Nat)
    (h : i < a.length) (bs : List Nat) (hget : a.get ⟨i, h⟩ = .live slot bs)
    (hnd : (liveIdsA a).Nodup) : findLiveIdx slot a = some i := by
  induction a generalizing i with
  | nil => simp at h
  | cons e rest ih =>
    cases i with
    | zero =>
      simp only [List.get] at hget
      subst hget
      simp [findLiveIdx]
    | succ i2 =>
      have h2 : i2 < rest.length := by simpa using h
      have hget2 : rest.get ⟨i2, h2⟩ = .live slot bs := hget
      cases e with
      | dead =>
        have hnd2 : (liveIdsA rest).Nodup := by
          simpa [liveIdsA, List.filterMap_cons] using hnd
        simp [findLiveIdx, ih i2 h2 hget2 hnd2]
      | live id bs2 =>
        simp only [liveIdsA, List.filterMap_cons, List.nodup_cons] at hnd
        have hid : id ≠ slot := by
          intro he
          subst he
          exact hnd.1 (mem_liveIdsA_of_get rest i2 h2 id bs hget2)
        simp [findLiveIdx, hid, ih i2 h2 hget2 hnd.2]

theorem liveIdsA_append (x y : List DEntry) :
    liveIdsA (x ++ y) = liveIdsA x ++ liveIdsA y := by
  unfold liveIdsA
  exact List.filterMap_append x y _

theorem take_set_of_le {α : Type} (l : List α) (i j : Nat) (x : α)
    (h : j ≤ i) : (l.set i x).take j = l.take j := by
  induction l generalizing i j with
  | nil => simp
  | cons b tl ih =>
    cases j with
    | zero => simp
    | succ j2 =>
      cases i with
      | zero => omega
      | succ i2 =>
        simp only [List.set, List.take]
        rw [ih i2 j2 (by omega)]

theorem take_set_of_lt {α : Type} (l : List α) (i j : Nat) (x : α)
    (h : i < j) : (l.set i x).take j = (l.take j).set i x := by
  induction l generalizing i j with
  | nil => simp
  | cons b tl ih =>
    cases i with
    | zero =>
      cases j with
      | zero => omega
      | succ j2 => simp
    | succ i2 =>
      cases j with
      | zero => omega
      | succ j2 =>
        simp only [List.set, List.take]
        rw [ih i2 j2 (by omega)]

/-- Decomposition of a page directory at a live entry. -/
theorem get_decomp (a : List DEntry) (i : Nat) (h : i < a.length) :
    a = a.take i ++ a.get ⟨i, h⟩ :: a.drop (i + 1) := by
  conv_lhs => rw [← List.take_append_drop i a]
  rw [List.drop_eq_getElem_cons h]
  rfl

theorem set_decomp {α : Type} (a : List α) (i : Nat) (h : i < a.length)
    (x : α) : a.set i x = a.take i ++ x :: a.drop (i + 1) := by
  rw [List.set_eq_take_append_cons_drop, if_pos h]

theorem sizesBefore_set_dead_le (a : List DEntry) (i j : Nat) (hj : j ≤ i) :
    sizesBefore (a.set i .dead) j = sizesBefore a j := by
  unfold sizesBefore
  rw [take_set_of_le a i j _ hj]

theorem sizesBefore_set_dead_gt (a : List DEntry) (i j : Nat)
    (h : i < a.length) (hj : i < j) (slot : Nat) (bs : List Nat)
    (hget : a.get ⟨i, h⟩ = .live slot bs) :
    sizesBefore (a.set i .dead) j + bs.length = sizesBefore a j := by
  unfold sizesBefore
  rw [take_set_of_lt a i j _ hj, List.map_set, List.sum_set]
  have hlen : i < (List.map entrySizeA (List.take j a)).length := by
    simp only [List.length_map, List.length_take]
    omega
  conv_rhs => rw [← List.take_append_drop i (List.map entrySizeA (List.take j a))]
  rw [List.sum_append, List.drop_eq_getElem_cons hlen, List.sum_cons]
  have hget2 : (List.map entrySizeA (List.take j a))[i] = bs.length := by
    rw [List.getElem_map, List.getElem_take]
    · have h3 : a[i] = DEntry.live slot bs := by
        rw [← hget]
        exact (List.get_eq_getElem a ⟨i, h⟩).symm
      rw [h3]
      rfl
  rw [hget2, if_pos hlen]
  simp [entrySizeA]
  omega

theorem totalSizeA_set_dead (a : List DEntry) (i : Nat) (h : i < a.length)
    (slot : Nat) (bs : List Nat) (hget : a.get ⟨i, h⟩ = .live slot bs) :
    totalSizeA (a.set i .dead) + bs.length = totalSizeA a := by
  have h1 := sizesBefore_set_dead_gt a i a.length h (by omega) slot bs hget
  rwa [sizesBefore_of_le_length _ _ (by simp), sizesBefore_length] at h1

theorem liveIdsA_set_dead (a : List DEntry) (i : Nat) (h : i < a.length)
    (slot : Nat) (bs : List Nat) (hget : a.get ⟨i, h⟩ = .live slot bs) :
    liveIdsA a = liveIdsA (a.take i) ++ slot :: liveIdsA (a.drop (i + 1)) ∧
    liveIdsA (a.set i .dead) =
      liveIdsA (a.take i) ++ liveIdsA (a.drop (i + 1)) := by
  constructor
  · conv_lhs => rw [get_decomp a i h]
    rw [liveIdsA_append, hget]
    rfl
  · rw [set_decomp a i h, liveIdsA_append]
    rfl

/-! ## Well-formedness and the concretization relation -/

/-- Well-formed abstract directory: distinct live ids that fit in 16 bits, a
header/payload space bound, and — while no header was ever deleted (the only
way the entry and live counts agree) — slot id `i` at directory position
`i`. -/
structure WfA (a : List DEntry) : Prop where
  nodup : (liveIdsA a).Nodup
  idBound : ∀ id ∈ liveIdsA a, id < 65536
  space : META_HEADER_SIZE + SLOT_META_SIZE * a.length + totalSizeA a ≤ PAGE_SIZE
  ident : a.length = numA a →
    ∀ (i : Nat) (h : i < a.length), ∃ bs, a.get ⟨i, h⟩ = .live i bs

/-- Byte-level contents of directory entry `i` under abstraction `a`:
deleted entries are all-zero; a live entry stores its id, payload length and
packed offset, with the payload bytes in the window below the offset. -/
def EntryRel (a : List DEntry) (p : Page) (i : Nat) (h : i < a.length) : Prop :=
  match a.get ⟨i, h⟩ with
  | .dead =>
      readU16 p.data (hdrLoc i) = 0 ∧ readU16 p.data (hdrLoc i + 2) = 0 ∧
      readU16 p.data (hdrLoc i + 4) = 0
  | .live id bs =>
      readU16 p.data (hdrLoc i) = id ∧
      readU16 p.data (hdrLoc i + 2) = bs.length ∧
      readU16 p.data (hdrLoc i + 4) = offA a i ∧
      ∀ k, k < bs.length → p.data (offA a i - bs.length + k) = bs.getD k 0

/-- Concretization relation between the abstract directory and the page
bytes. -/
structure RelA (a : List DEntry) (p : Page) : Prop where
  total : getTotalSlotHeaders p = a.length
  num : getNumSlots p = numA a
  first : getFirstOffset p = PAGE_SIZE - totalSizeA a
  rawFirst : a ≠ [] →
    readU16 p.data FIRSTOFFSET_LOC = PAGE_SIZE - totalSizeA a
  entry : ∀ (i : Nat) (h : i < a.length), EntryRel a p i h

theorem offA_pos (a : List DEntry) (hwf : WfA a) (i : Nat) :
    0 < offA a i := by
  have h1 := sizesBefore_le_total a i
  have h2 := hwf.space
  simp only [META_HEADER_SIZE, SLOT_META_SIZE, PAGE_SIZE] at h2
  unfold offA PAGE_SIZE
  omega

/-- The directory scan of `get_slot_meta_loc` computes `findLiveIdx` on the
abstraction: starting at entry `i` with enough fuel, it returns the header
location of the first live entry at or after `i` whose id is `slot`. -/
theorem getSlotMetaLocAux_char (p : Page) (a : List DEntry) (hwf : WfA a)
    (hrel : RelA a p) (slot : Nat) :
    ∀ (fuel i : Nat), a.length ≤ i + fuel →
    getSlotMetaLocAux p slot fuel (hdrLoc i)
        (META_HEADER_SIZE + a.length * SLOT_META_SIZE) =
      (findLiveIdx slot (a.drop i)).map (fun j => hdrLoc (i + j)) := by
  intro fuel
  induction fuel with
  | zero =>
    intro i hi
    have hd : a.drop i = [] := List.drop_eq_nil_of_le (by omega)
    simp [getSlotMetaLocAux, hd, findLiveIdx]
  | succ fuel ih =>
    intro i hi
    by_cases hlt : i < a.length
    · have hguard : hdrLoc i < META_HEADER_SIZE + a.length * SLOT_META_SIZE := by
        simp only [hdrLoc, META_HEADER_SIZE, SLOT_META_SIZE]
        omega
      have hnext : hdrLoc i + 6 = hdrLoc (i + 1) := by
        simp only [hdrLoc, META_HEADER_SIZE, SLOT_META_SIZE]
        omega
      have hrec := ih (i + 1) (by omega)
      have hdrop : a.drop i = a.get ⟨i, hlt⟩ :: a.drop (i + 1) := by
        rw [List.drop_eq_getElem_cons hlt]
        rfl
      have hentry := hrel.entry i hlt
      unfold EntryRel at hentry
      cases hget : a.get ⟨i, hlt⟩ with
      | dead =>
        rw [hget] at hentry
        obtain ⟨h0, _, hoff0⟩ := hentry
        rw [hget] at hdrop
        have hstep : getSlotMetaLocAux p slot (fuel + 1) (hdrLoc i)
            (META_HEADER_SIZE + a.length * SLOT_META_SIZE) =
            getSlotMetaLocAux p slot fuel (hdrLoc i + 6)
              (META_HEADER_SIZE + a.length * SLOT_META_SIZE) := by
          by_cases hs : slot = 0
          · subst hs
            simp [getSlotMetaLocAux, hguard, h0, getSlotOffset, hoff0]
          · have hs2 : ¬ ((0 : Nat) = slot) := fun he => hs he.symm
            simp [getSlotMetaLocAux, hguard, h0, hs2]
        rw [hstep, hnext, hrec, hdrop]
        cases hf : findLiveIdx slot (a.drop (i + 1)) with
        | none => simp [findLiveIdx, hf]
        | some j =>
          simp only [findLiveIdx, hf, Option.map_some']
          congr 1
          simp only [hdrLoc, META_HEADER_SIZE, SLOT_META_SIZE]
          omega
      | live id bs =>
        rw [hget] at hentry
        obtain ⟨hid, hsz, hoffeq, hpay⟩ := hentry
        rw [hget] at hdrop
        have hoffne : offA a i ≠ 0 := by
          have := offA_pos a hwf i
          omega
        by_cases hs : id = slot
        · subst hs
          have hres : getSlotMetaLocAux p id (fuel + 1) (hdrLoc i)
              (META_HEADER_SIZE + a.length * SLOT_META_SIZE) =
              some (hdrLoc i) := by
            simp [getSlotMetaLocAux, hguard, hid, getSlotOffset, hoffeq, hoffne]
          rw [hres, hdrop]
          simp [findLiveIdx]
        · have hstep : getSlotMetaLocAux p slot (fuel + 1) (hdrLoc i)
              (META_HEADER_SIZE + a.length * SLOT_META_SIZE) =
              getSlotMetaLocAux p slot fuel (hdrLoc i + 6)
                (META_HEADER_SIZE + a.length * SLOT_META_SIZE) := by
            simp [getSlotMetaLocAux, hguard, hid, hs]
          rw [hstep, hnext, hrec, hdrop]
          simp only [findLiveIdx, if_neg hs]
          cases hf : findLiveIdx slot (a.drop (i + 1)) with
          | none => rfl
          | some j =>
            simp only [Option.map_some']
            congr 1
            simp only [hdrLoc, META_HEADER_SIZE, SLOT_META_SIZE]
            omega
    · have hd : a.drop i = [] := List.drop_eq_nil_of_le (by omega)
      have hguard : ¬ hdrLoc i < META_HEADER_SIZE + a.length * SLOT_META_SIZE := by
        simp only [hdrLoc, META_HEADER_SIZE, SLOT_META_SIZE]
        omega
      simp [getSlotMetaLocAux, hguard, hd, findLiveIdx]

/-- `get_slot_meta_loc` finds exactly the first live directory entry with the
requested id. -/
theorem getSlotMetaLoc_char (p : Page) (a : List DEntry) (hwf : WfA a)
    (hrel : RelA a p) (slot : Nat) :
    getSlotMetaLoc p slot = (findLiveIdx slot a).map hdrLoc := by
  unfold getSlotMetaLoc
  rw [hrel.total]
  have hchar := getSlotMetaLocAux_char p a hwf hrel slot (a.length + 1) 0
    (by omega)
  have h0 : hdrLoc 0 = META_HEADER_SIZE := by
    simp [hdrLoc]
  rw [h0, List.drop_zero] at hchar
  simp only [Nat.zero_add] at hchar
  exact hchar

theorem range_map_getD (bs : List Nat) (f : Nat → Nat)
    (h : ∀ k, k < bs.length → f k = bs.getD k 0) :
    (List.range bs.length).map f = bs := by
  apply List.ext_getElem
  · simp
  · intro i h1 h2
    simp only [List.getElem_map, List.getElem_range]
    rw [h i h2]
    exact List.getD_eq_getElem bs 0 h2

/-- `get_value` returns the payload of the first live directory entry with
the requested id. -/
theorem getValue_char (p : Page) (a : List DEntry) (hwf : WfA a)
    (hrel : RelA a p) (slot : Nat) :
    getValue p slot = (findLiveIdx slot a).bind (liveBytesAt a) := by
  unfold getValue
  rw [getSlotMetaLoc_char p a hwf hrel slot]
  cases hf : findLiveIdx slot a with
  | none => rfl
  | some j =>
    obtain ⟨hj, bs, hget⟩ := findLiveIdx_some slot a j hf
    have hentry := hrel.entry j hj
    unfold EntryRel at hentry
    rw [hget] at hentry
    obtain ⟨hid, hsz, hoffeq, hpay⟩ := hentry
    have hlb : liveBytesAt a j = some bs := by
      unfold liveBytesAt
      rw [List.get?_eq_get hj, hget]
    simp only [Option.map_some', Option.some_bind, hlb]
    unfold getSlotSize getSlotOffset
    rw [hsz, hoffeq]
    exact congrArg some (range_map_getD bs _ hpay)

/-- The collection loop of `get_next_slotid` gathers exactly the live slot
ids, in directory order. -/
theorem collectSlotIdsAux_char (p : Page) (a : List DEntry) (hwf : WfA a)
    (hrel : RelA a p) :
    ∀ (fuel i : Nat), a.length ≤ i + fuel →
    collectSlotIdsAux p fuel (hdrLoc i)
        (META_HEADER_SIZE + a.length * SLOT_META_SIZE) =
      liveIdsA (a.drop i) := by
  intro fuel
  induction fuel with
  | zero =>
    intro i hi
    have hd : a.drop i = [] := List.drop_eq_nil_of_le (by omega)
    simp [collectSlotIdsAux, hd, liveIdsA]
  | succ fuel ih =>
    intro i hi
    by_cases hlt : i < a.length
    · have hguard : hdrLoc i < META_HEADER_SIZE + a.length * SLOT_META_SIZE := by
        simp only [hdrLoc, META_HEADER_SIZE, SLOT_META_SIZE]
        omega
      have hnext : hdrLoc i + 6 = hdrLoc (i + 1) := by
        simp only [hdrLoc, META_HEADER_SIZE, SLOT_META_SIZE]
        omega
      have hrec := ih (i + 1) (by omega)
      have hdrop : a.drop i = a.get ⟨i, hlt⟩ :: a.drop (i + 1) := by
        rw [List.drop_eq_getElem_cons hlt]
        rfl
      have hentry := hrel.entry i hlt
      unfold EntryRel at hentry
      cases hget : a.get ⟨i, hlt⟩ with
      | dead =>
        rw [hget] at hentry
        obtain ⟨h0, _, hoff0⟩ := hentry
        rw [hget] at hdrop
        have hstep : collectSlotIdsAux p (fuel + 1) (hdrLoc i)
            (META_HEADER_SIZE + a.length * SLOT_META_SIZE) =
            collectSlotIdsAux p fuel (hdrLoc i + 6)
              (META_HEADER_SIZE + a.length * SLOT_META_SIZE) := by
          simp [collectSlotIdsAux, hguard, h0, getSlotOffset, hoff0]
        rw [hstep, hnext, hrec, hdrop]
        simp [liveIdsA, List.filterMap_cons]
      | live id bs =>
        rw [hget] at hentry
        obtain ⟨hid, hsz, hoffeq, hpay⟩ := hentry
        rw [hget] at hdrop
        have hoffne : offA a i ≠ 0 := by
          have := offA_pos a hwf i
          omega
        have hstep : collectSlotIdsAux p (fuel + 1) (hdrLoc i)
            (META_HEADER_SIZE + a.length * SLOT_META_SIZE) =
            id :: collectSlotIdsAux p fuel (hdrLoc i + 6)
              (META_HEADER_SIZE + a.length * SLOT_META_SIZE) := by
          simp [collectSlotIdsAux, hguard, getSlotOffset, hoffeq, hoffne, hid]
        rw [hstep, hnext, hrec, hdrop]
        simp [liveIdsA, List.filterMap_cons]
    · have hd : a.drop i = [] := List.drop_eq_nil_of_le (by omega)
      have hguard : ¬ hdrLoc i < META_HEADER_SIZE + a.length * SLOT_META_SIZE := by
        simp only [hdrLoc, META_HEADER_SIZE, SLOT_META_SIZE]
        omega
      simp [collectSlotIdsAux, hguard, hd, liveIdsA]

/-- The gap-scan loop of `get_next_slotid`: on a strictly sorted list with
all elements at least `e` and fallback `e + length`, it returns the smallest
value `≥ e` that is absent. -/
theorem minMissingLoop_spec (l : List Nat) (e : Nat)
    (hsort : l.Sorted (· < ·)) (hlb : ∀ x ∈ l, e ≤ x) :
    minMissingLoop l (e + l.length) e ∉ l ∧
      (∀ j, e ≤ j → j < minMissingLoop l (e + l.length) e → j ∈ l) ∧
      e ≤ minMissingLoop l (e + l.length) e := by
  induction l generalizing e with
  | nil =>
    refine ⟨by simp, ?_, by simp [minMissingLoop]⟩
    intro j hj1 hj2
    simp only [minMissingLoop, List.length_nil, Nat.add_zero] at hj2
    omega
  | cons id rest ih =>
    rw [List.sorted_cons] at hsort
    by_cases hid : id = e
    · subst hid
      have harg : id + (id :: rest).length = (id + 1) + rest.length := by
        simp only [List.length_cons]
        omega
      have hstep : minMissingLoop (id :: rest) (id + (id :: rest).length) id =
          minMissingLoop rest ((id + 1) + rest.length) (id + 1) := by
        rw [harg]
        simp [minMissingLoop]
      have hlb2 : ∀ x ∈ rest, id + 1 ≤ x := fun x hx => hsort.1 x hx
      obtain ⟨h1, h2, h3⟩ := ih (id + 1) hsort.2 hlb2
      rw [hstep]
      refine ⟨?_, ?_, by omega⟩
      · intro hmem
        rcases List.mem_cons.mp hmem with he | hm
        · omega
        · exact h1 hm
      · intro j hj1 hj2
        by_cases hje : j = id
        · exact List.mem_cons.mpr (Or.inl hje)
        · exact List.mem_cons.mpr (Or.inr (h2 j (by omega) hj2))
    · have hstep : minMissingLoop (id :: rest) (e + (id :: rest).length) e = e := by
        simp [minMissingLoop, hid]
      rw [hstep]
      have hgt : e < id := by
        have := hlb id (List.mem_cons_self id rest)
        omega
      refine ⟨?_, ?_, Nat.le_refl e⟩
      · intro hmem
        rcases List.mem_cons.mp hmem with he | hm
        · omega
        · have := hsort.1 e hm
          omega
      · intro j hj1 hj2
        omega

/-- `get_next_slotid` returns the smallest slot id not currently live. -/
theorem getNextSlotid_spec (p : Page) (a : List DEntry) (hwf : WfA a)
    (hrel : RelA a p) :
    getNextSlotid p ∉ liveIdsA a ∧
      ∀ j, j < getNextSlotid p → j ∈ liveIdsA a := by
  unfold getNextSlotid
  rw [hrel.total, hrel.num]
  by_cases heq : a.length = numA a
  · rw [if_pos heq]
    constructor
    · intro hmem
      obtain ⟨i, h, bs, hget⟩ := exists_get_of_mem_liveIdsA a (numA a) hmem
      obtain ⟨bs2, hget2⟩ := hwf.ident heq i h
      rw [hget] at hget2
      cases hget2
      omega
    · intro j hj
      have hjlt : j < a.length := by omega
      obtain ⟨bs, hget⟩ := hwf.ident heq j hjlt
      exact mem_liveIdsA_of_get a j hjlt j bs hget
  · rw [if_neg heq]
    have hcol := collectSlotIdsAux_char p a hwf hrel (a.length + 1) 0 (by omega)
    have h0 : hdrLoc 0 = META_HEADER_SIZE := by
      simp [hdrLoc]
    rw [h0, List.drop_zero] at hcol
    rw [hcol]
    have hperm : (List.insertionSort (· ≤ ·) (liveIdsA a)).Perm (liveIdsA a) :=
      List.perm_insertionSort (· ≤ ·) (liveIdsA a)
    have hnd : (List.insertionSort (· ≤ ·) (liveIdsA a)).Nodup :=
      hperm.nodup_iff.mpr hwf.nodup
    have hsle : (List.insertionSort (· ≤ ·) (liveIdsA a)).Sorted (· ≤ ·) :=
      List.sorted_insertionSort (· ≤ ·) (liveIdsA a)
    have hsort : (List.insertionSort (· ≤ ·) (liveIdsA a)).Sorted (· < ·) :=
      hsle.lt_of_le hnd
    have hlen : numA a = 0 + (List.insertionSort (· ≤ ·) (liveIdsA a)).length := by
      rw [hperm.length_eq]
      simp [numA]
    obtain ⟨h1, h2, _⟩ := minMissingLoop_spec
      (List.insertionSort (· ≤ ·) (liveIdsA a)) 0 hsort (by omega)
    rw [← hlen] at h1 h2
    constructor
    · intro hmem
      exact h1 (hperm.mem_iff.mpr hmem)
    · intro j hj
      exact hperm.mem_iff.mp (h2 j (by omega) hj)

theorem liveIdsA_concat_live (a : List DEntry) (sid : Nat) (bs : List Nat) :
    liveIdsA (a ++ [.live sid bs]) = liveIdsA a ++ [sid] := by
  rw [liveIdsA_append]
  rfl

theorem totalSizeA_concat (a : List DEntry) (x : DEntry) :
    totalSizeA (a ++ [x]) = totalSizeA a + entrySizeA x := by
  simp [totalSizeA]

theorem sizesBefore_concat_le (a : List DEntry) (x : DEntry) (i : Nat)
    (h : i ≤ a.length) : sizesBefore (a ++ [x]) i = sizesBefore a i := by
  unfold sizesBefore
  rw [List.take_append_of_le_length h]

theorem numA_le_length (a : List DEntry) : numA a ≤ a.length := by
  unfold numA liveIdsA
  exact List.length_filterMap_le _ a

theorem getNextSlotid_le_numA (p : Page) (a : List DEntry) (hwf : WfA a)
    (hrel : RelA a p) : getNextSlotid p ≤ numA a := by
  obtain ⟨_, h2⟩ := getNextSlotid_spec p a hwf hrel
  have hsub : List.range (getNextSlotid p) ⊆ liveIdsA a := by
    intro j hj
    exact h2 j (List.mem_range.mp hj)
  have hle := ((List.nodup_range _).subperm hsub).length_le
  simpa [numA] using hle

/-- The full byte-buffer mutation of the success branch of `add_value` (in
the source's write order), abbreviated for the refinement proof; the lemma
`addValue_eq` shows `add_value` produces exactly this buffer. -/
def addValueBytes (d : Nat → Nat) (tot num first sid : Nat)
    (bytes : List Nat) : Nat → Nat :=
  let sml := META_HEADER_SIZE + SLOT_META_SIZE * tot
  writeU16 (writeU16 (writeBytes (writeU16 (writeU16 (writeU16 (writeU16
    d NUMSLOTS_LOC (num + 1)) FIRSTOFFSET_LOC (first - bytes.length))
    TOTSLOTS_LOC (tot + 1)) sml sid) (first - bytes.length) bytes)
    (sml + 4) first) (sml + 2) bytes.length

theorem totHeaders_after_two (p : Page) (v1 v2 : Nat) :
    getTotalSlotHeaders (Page.mk (writeU16 (writeU16 p.data NUMSLOTS_LOC v1)
      FIRSTOFFSET_LOC v2)) = getTotalSlotHeaders p := by
  unfold getTotalSlotHeaders NUMSLOTS_LOC FIRSTOFFSET_LOC TOTSLOTS_LOC
  rw [readU16_writeU16_ne _ _ _ _ (by omega),
    readU16_writeU16_ne _ _ _ _ (by omega)]

theorem addValue_eq (p : Page) (bytes : List Nat)
    (hlen : bytes.length < 65536)
    (hfree : bytes.length + 6 ≤ getFreeSpace p) :
    addValue p bytes = .ok (Page.mk (addValueBytes p.data
      (getTotalSlotHeaders p) (getNumSlots p) (getFirstOffset p)
      (getNextSlotid p) bytes), some (getNextSlotid p)) := by
  have hmod : bytes.length % 65536 = bytes.length := Nat.mod_eq_of_lt hlen
  simp only [addValue, addValueBytes, hmod]
  rw [if_pos (by omega), totHeaders_after_two]
  simp

/-- Refinement of a successful `add_value`: when the free-space check passes,
the directory gains one live entry holding the smallest unused slot id and
the payload, and the byte-level invariants are re-established. -/
theorem addValue_rel (p : Page) (a : List DEntry) (hwf : WfA a)
    (hrel : RelA a p) (bytes : List Nat) (hlen : bytes.length < 65536)
    (hfree : bytes.length + 6 ≤ getFreeSpace p) :
    addValue p bytes = .ok (Page.mk (addValueBytes p.data a.length (numA a)
        (PAGE_SIZE - totalSizeA a) (getNextSlotid p) bytes),
      some (getNextSlotid p)) ∧
    WfA (a ++ [.live (getNextSlotid p) bytes]) ∧
    RelA (a ++ [.live (getNextSlotid p) bytes])
      (Page.mk (addValueBytes p.data a.length (numA a)
        (PAGE_SIZE - totalSizeA a) (getNextSlotid p) bytes)) := by
  have heq := addValue_eq p bytes hlen hfree
  rw [hrel.total, hrel.num, hrel.first] at heq
  have hNum : numA a ≤ a.length := numA_le_length a
  have hSid : getNextSlotid p ≤ numA a := getNextSlotid_le_numA p a hwf hrel
  have hsid_not : getNextSlotid p ∉ liveIdsA a := (getNextSlotid_spec p a hwf hrel).1
  have hsp : 8 + 6 * a.length + totalSizeA a ≤ 4096 := by
    have h1 := hwf.space
    simpa [META_HEADER_SIZE, SLOT_META_SIZE, PAGE_SIZE] using h1
  have hfr : 8 + 6 * a.length + 6 + bytes.length + totalSizeA a ≤ 4096 := by
    have h1 := hfree
    unfold getFreeSpace getHeaderSize at h1
    rw [hrel.first, hrel.total] at h1
    simp only [META_HEADER_SIZE, SLOT_META_SIZE, PAGE_SIZE] at h1
    omega
  have hliveids : liveIdsA (a ++ [.live (getNextSlotid p) bytes]) =
      liveIdsA a ++ [getNextSlotid p] := liveIdsA_concat_live a _ bytes
  have hnuma' : numA (a ++ [.live (getNextSlotid p) bytes]) = numA a + 1 := by
    simp [numA, hliveids]
  have hts' : totalSizeA (a ++ [.live (getNextSlotid p) bytes]) =
      totalSizeA a + bytes.length := by
    rw [totalSizeA_concat]
    rfl
  have hlen1 : (a ++ [DEntry.live (getNextSlotid p) bytes]).length =
      a.length + 1 := by
    simp
  have hwf' : WfA (a ++ [.live (getNextSlotid p) bytes]) := by
    refine ⟨?_, ?_, ?_, ?_⟩
    · rw [hliveids]
      refine List.Nodup.append hwf.nodup (List.nodup_singleton _) ?_
      intro x hx hx2
      rw [List.mem_singleton] at hx2
      subst hx2
      exact hsid_not hx
    · intro id hmem
      rw [hliveids] at hmem
      rcases List.mem_append.mp hmem with hm | hm
      · exact hwf.idBound id hm
      · rw [List.mem_singleton] at hm
        subst hm
        omega
    · rw [hlen1, hts']
      simp only [META_HEADER_SIZE, SLOT_META_SIZE, PAGE_SIZE]
      omega
    · intro hnn i hi
      rw [hlen1] at hnn
      rw [hnuma'] at hnn
      have hLN : a.length = numA a := by omega
      have hsideq : getNextSlotid p = a.length := by
        by_contra hne
        have hlt : getNextSlotid p < a.length := by omega
        obtain ⟨bs, hget⟩ := hwf.ident hLN (getNextSlotid p) hlt
        exact hsid_not (mem_liveIdsA_of_get a _ hlt _ bs hget)
      have hi2 : i < a.length + 1 := by
        rw [hlen1] at hi
        exact hi
      by_cases hio : i < a.length
      · obtain ⟨bs, hget⟩ := hwf.ident hLN i hio
        refine ⟨bs, ?_⟩
        have hgeteq : (a ++ [DEntry.live (getNextSlotid p) bytes]).get ⟨i, hi⟩ =
            a.get ⟨i, hio⟩ := by
          simp [List.get_eq_getElem, List.getElem_append_left hio]
        rw [hgeteq, hget]
      · have hieq : i = a.length := by omega
        refine ⟨bytes, ?_⟩
        subst hieq
        have hgeteq : (a ++ [DEntry.live (getNextSlotid p) bytes]).get
            ⟨a.length, hi⟩ = DEntry.live (getNextSlotid p) bytes := by
          simp [List.get_eq_getElem]
        rw [hgeteq, hsideq]
  have hunfold : addValueBytes p.data a.length (numA a)
      (PAGE_SIZE - totalSizeA a) (getNextSlotid p) bytes =
      writeU16 (writeU16 (writeBytes (writeU16 (writeU16 (writeU16 (writeU16
        p.data 2 (numA a + 1)) 4 (4096 - totalSizeA a - bytes.length))
        6 (a.length + 1)) (8 + 6 * a.length) (getNextSlotid p))
        (4096 - totalSizeA a - bytes.length) bytes)
        (8 + 6 * a.length + 4) (4096 - totalSizeA a))
        (8 + 6 * a.length + 2) bytes.length := by
    simp only [addValueBytes, NUMSLOTS_LOC, FIRSTOFFSET_LOC, TOTSLOTS_LOC,
      META_HEADER_SIZE, SLOT_META_SIZE, PAGE_SIZE]
  have h6r : readU16 (addValueBytes p.data a.length (numA a)
      (PAGE_SIZE - totalSizeA a) (getNextSlotid p) bytes) 6 = a.length + 1 := by
    rw [hunfold]
    rw [readU16_writeU16_ne _ _ _ _ (by omega),
      readU16_writeU16_ne _ _ _ _ (by omega),
      readU16_writeBytes_out _ _ _ _ (by omega),
      readU16_writeU16_ne _ _ _ _ (by omega),
      readU16_writeU16_self_small _ _ _ (by omega)]
  have h2r : readU16 (addValueBytes p.data a.length (numA a)
      (PAGE_SIZE - totalSizeA a) (getNextSlotid p) bytes) 2 = numA a + 1 := by
    rw [hunfold]
    rw [readU16_writeU16_ne _ _ _ _ (by omega),
      readU16_writeU16_ne _ _ _ _ (by omega),
      readU16_writeBytes_out _ _ _ _ (by omega),
      readU16_writeU16_ne _ _ _ _ (by omega),
      readU16_writeU16_ne _ _ _ _ (by omega),
      readU16_writeU16_ne _ _ _ _ (by omega),
      readU16_writeU16_self_small _ _ _ (by omega)]
  have h4r : readU16 (addValueBytes p.data a.length (numA a)
      (PAGE_SIZE - totalSizeA a) (getNextSlotid p) bytes) 4 =
      4096 - totalSizeA a - bytes.length := by
    rw [hunfold]
    rw [readU16_writeU16_ne _ _ _ _ (by omega),
      readU16_writeU16_ne _ _ _ _ (by omega),
      readU16_writeBytes_out _ _ _ _ (by omega),
      readU16_writeU16_ne _ _ _ _ (by omega),
      readU16_writeU16_ne _ _ _ _ (by omega),
      readU16_writeU16_self_small _ _ _ (by omega)]
  have hsidr : readU16 (addValueBytes p.data a.length (numA a)
      (PAGE_SIZE - totalSizeA a) (getNextSlotid p) bytes) (8 + 6 * a.length) =
      getNextSlotid p := by
    rw [hunfold]
    rw [readU16_writeU16_ne _ _ _ _ (by omega),
      readU16_writeU16_ne _ _ _ _ (by omega),
      readU16_writeBytes_out _ _ _ _ (by omega),
      readU16_writeU16_self_small _ _ _ (by omega)]
  have hszr : readU16 (addValueBytes p.data a.length (numA a)
      (PAGE_SIZE - totalSizeA a) (getNextSlotid p) bytes)
      (8 + 6 * a.length + 2) = bytes.length := by
    rw [hunfold]
    rw [readU16_writeU16_self_small _ _ _ (by omega)]
  have hoffr : readU16 (addValueBytes p.data a.length (numA a)
      (PAGE_SIZE - totalSizeA a) (getNextSlotid p) bytes)
      (8 + 6 * a.length + 4) = 4096 - totalSizeA a := by
    rw [hunfold]
    rw [readU16_writeU16_ne _ _ _ _ (by omega),
      readU16_writeU16_self_small _ _ _ (by omega)]
  have hpayr : ∀ k, k < bytes.length → (addValueBytes p.data a.length (numA a)
      (PAGE_SIZE - totalSizeA a) (getNextSlotid p) bytes)
      (4096 - totalSizeA a - bytes.length + k) = bytes.getD k 0 := by
    intro k hk
    rw [hunfold]
    rw [writeU16_apply_ne _ _ _ _ (by omega) (by omega),
      writeU16_apply_ne _ _ _ _ (by omega) (by omega),
      writeBytes_apply_in _ _ _ _ (by omega) (by omega)]
    have hidx : 4096 - totalSizeA a - bytes.length + k -
        (4096 - totalSizeA a - bytes.length) = k := by
      omega
    rw [hidx]
  have holdr : ∀ j, 7 < j → j + 1 < 8 + 6 * a.length →
      readU16 (addValueBytes p.data a.length (numA a)
        (PAGE_SIZE - totalSizeA a) (getNextSlotid p) bytes) j =
      readU16 p.data j := by
    intro j h1 h2
    rw [hunfold]
    rw [readU16_writeU16_ne _ _ _ _ (by omega),
      readU16_writeU16_ne _ _ _ _ (by omega),
      readU16_writeBytes_out _ _ _ _ (by omega),
      readU16_writeU16_ne _ _ _ _ (by omega),
      readU16_writeU16_ne _ _ _ _ (by omega),
      readU16_writeU16_ne _ _ _ _ (by omega),
      readU16_writeU16_ne _ _ _ _ (by omega)]
  have holdp : ∀ q, 4096 - totalSizeA a ≤ q →
      (addValueBytes p.data a.length (numA a)
        (PAGE_SIZE - totalSizeA a) (getNextSlotid p) bytes) q = p.data q := by
    intro q hq
    rw [hunfold]
    rw [writeU16_apply_ne _ _ _ _ (by omega) (by omega),
      writeU16_apply_ne _ _ _ _ (by omega) (by omega),
      writeBytes_apply_out _ _ _ _ (by omega),
      writeU16_apply_ne _ _ _ _ (by omega) (by omega),
      writeU16_apply_ne _ _ _ _ (by omega) (by omega),
      writeU16_apply_ne _ _ _ _ (by omega) (by omega),
      writeU16_apply_ne _ _ _ _ (by omega) (by omega)]
  refine ⟨heq, hwf', ?_⟩
  refine ⟨?_, ?_, ?_, ?_, ?_⟩
  · show readU16 _ TOTSLOTS_LOC = _
    rw [hlen1]
    simp only [TOTSLOTS_LOC]
    exact h6r
  · show readU16 _ NUMSLOTS_LOC = _
    rw [hnuma']
    simp only [NUMSLOTS_LOC]
    exact h2r
  · show getFirstOffset _ = _
    unfold getFirstOffset
    simp only [FIRSTOFFSET_LOC]
    rw [h4r, if_neg (by omega), hts']
    simp only [PAGE_SIZE]
    omega
  · intro _
    show readU16 _ FIRSTOFFSET_LOC = _
    simp only [FIRSTOFFSET_LOC]
    rw [h4r, hts']
    simp only [PAGE_SIZE]
    omega
  · intro i hi
    have hi2 : i < a.length + 1 := by
      rw [hlen1] at hi
      exact hi
    have hdl : ∀ m : Nat, hdrLoc m = 8 + 6 * m := by
      intro m
      simp [hdrLoc, META_HEADER_SIZE, SLOT_META_SIZE]
    by_cases hio : i < a.length
    · have hgeteq : (a ++ [DEntry.live (getNextSlotid p) bytes]).get ⟨i, hi⟩ =
          a.get ⟨i, hio⟩ := by
        simp [List.get_eq_getElem, List.getElem_append_left hio]
      unfold EntryRel
      rw [hgeteq]
      have hEold := hrel.entry i hio
      unfold EntryRel at hEold
      have hoff_pres : offA (a ++ [DEntry.live (getNextSlotid p) bytes]) i =
          offA a i := by
        unfold offA
        rw [sizesBefore_concat_le _ _ _ (by omega)]
      cases hg : a.get ⟨i, hio⟩ with
      | dead =>
        rw [hg] at hEold
        obtain ⟨e1, e2, e3⟩ := hEold
        refine ⟨?_, ?_, ?_⟩
        · show readU16 _ (hdrLoc i) = 0
          rw [hdl i, holdr _ (by omega) (by omega), ← hdl i]
          exact e1
        · show readU16 _ (hdrLoc i + 2) = 0
          rw [hdl i, holdr _ (by omega) (by omega), ← hdl i]
          exact e2
        · show readU16 _ (hdrLoc i + 4) = 0
          rw [hdl i, holdr _ (by omega) (by omega), ← hdl i]
          exact e3
      | live id2 bs2 =>
        rw [hg] at hEold
        obtain ⟨e1, e2, e3, e4⟩ := hEold
        have hsb := sizesBefore_succ a i hio
        rw [hg] at hsb
        have hsb2 : entrySizeA (DEntry.live id2 bs2) = bs2.length := rfl
        rw [hsb2] at hsb
        have hsbt := sizesBefore_le_total a (i + 1)
        have hsbi := sizesBefore_le_total a i
        refine ⟨?_, ?_, ?_, ?_⟩
        · show readU16 _ (hdrLoc i) = id2
          rw [hdl i, holdr _ (by omega) (by omega), ← hdl i]
          exact e1
        · show readU16 _ (hdrLoc i + 2) = bs2.length
          rw [hdl i, holdr _ (by omega) (by omega), ← hdl i]
          exact e2
        · show readU16 _ (hdrLoc i + 4) = _
          rw [hoff_pres, hdl i, holdr _ (by omega) (by omega), ← hdl i]
          exact e3
        · intro k hk
          rw [hoff_pres]
          have hoffi : offA a i = 4096 - sizesBefore a i := by
            simp [offA, PAGE_SIZE]
          show (addValueBytes p.data a.length (numA a)
            (PAGE_SIZE - totalSizeA a) (getNextSlotid p) bytes)
            (offA a i - bs2.length + k) = bs2.getD k 0
          rw [holdp _ (by omega)]
          exact e4 k hk
    · have hieq : i = a.length := by omega
      subst hieq
      have hgeteq : (a ++ [DEntry.live (getNextSlotid p) bytes]).get
          ⟨a.length, hi⟩ = DEntry.live (getNextSlotid p) bytes := by
        simp [List.get_eq_getElem]
      unfold EntryRel
      rw [hgeteq]
      have hoffL : offA (a ++ [DEntry.live (getNextSlotid p) bytes]) a.length =
          4096 - totalSizeA a := by
        unfold offA
        rw [sizesBefore_concat_le _ _ _ (le_refl _), sizesBefore_length]
        simp [PAGE_SIZE]
      refine ⟨?_, ?_, ?_, ?_⟩
      · show readU16 _ (hdrLoc a.length) = getNextSlotid p
        rw [hdl]
        exact hsidr
      · show readU16 _ (hdrLoc a.length + 2) = bytes.length
        rw [hdl]
        exact hszr
      · show readU16 _ (hdrLoc a.length + 4) = _
        rw [hdl, hoffL]
        exact hoffr
      · intro k hk
        rw [hoffL]
        exact hpayr k hk

theorem get_set_ne {α : Type} (a : List α) (i m : Nat) (x : α)
    (hm : m < a.length) (hm2 : m < (a.set i x).length) (hne : m ≠ i) :
    (a.set i x).get ⟨m, hm2⟩ = a.get ⟨m, hm⟩ := by
  simp only [List.get_eq_getElem]
  exact List.getElem_set_ne (fun he => hne he.symm) _

theorem numA_set_dead (a : List DEntry) (i : Nat) (h : i < a.length)
    (slot : Nat) (bs : List Nat) (hget : a.get ⟨i, h⟩ = .live slot bs) :
    numA (a.set i .dead) + 1 = numA a := by
  obtain ⟨h1, h2⟩ := liveIdsA_set_dead a i h slot bs hget
  unfold numA
  rw [h1, h2]
  simp
  omega

theorem wfA_set_dead (a : List DEntry) (hwf : WfA a) (i : Nat)
    (h : i < a.length) (slot : Nat) (bs : List Nat)
    (hget : a.get ⟨i, h⟩ = .live slot bs) : WfA (a.set i .dead) := by
  obtain ⟨hdec, hdec2⟩ := liveIdsA_set_dead a i h slot bs hget
  have hsub : List.Sublist (liveIdsA (a.set i .dead)) (liveIdsA a) := by
    rw [hdec, hdec2]
    exact List.Sublist.append_left (List.sublist_cons_self slot _) _
  refine ⟨hsub.nodup hwf.nodup, ?_, ?_, ?_⟩
  · intro id hmem
    exact hwf.idBound id (hsub.subset hmem)
  · have hts := totalSizeA_set_dead a i h slot bs hget
    have hsp := hwf.space
    rw [List.length_set]
    omega
  · intro hnn
    exfalso
    have h1 := numA_set_dead a i h slot bs hget
    have h2 : numA a ≤ a.length := numA_le_length a
    rw [List.length_set] at hnn
    omega

theorem offA_set_dead_le (a : List DEntry) (i m : Nat) (hm : m ≤ i) :
    offA (a.set i .dead) m = offA a m := by
  unfold offA
  rw [sizesBefore_set_dead_le a i m hm]

theorem pageMk_data (f : Nat → Nat) (x : Nat) : (Page.mk f).data x = f x := rfl

/-- Invariant specification of the `compact` while-loop of `delete_value`:
starting at directory position `j` past the deleted entry `i`, on a buffer
whose entries before `j` (other than `i`) already sit in their packed final
places and whose entries from `j` on still hold their original headers and
payloads, the loop moves each remaining live payload up by the deleted size,
rewrites its offset field, and touches nothing else that matters: the first
8 meta bytes keep their original values and every entry other than `i` ends
up related to the abstract directory `a.set i dead`. -/
theorem compactLoop_spec (p : Page) (a : List DEntry) (hwf : WfA a)
    (hrel : RelA a p) (i : Nat) (hi : i < a.length) (slot : Nat)
    (bs : List Nat) (hget : a.get ⟨i, hi⟩ = .live slot bs) :
    ∀ (fuel j : Nat) (d : Nat → Nat), i < j → j ≤ a.length →
    a.length ≤ j + fuel →
    (∀ q, q < 8 → d q = p.data q) →
    (∀ m, j ≤ m → m + 1 ≤ a.length →
      readU16 d (hdrLoc m) = readU16 p.data (hdrLoc m) ∧
      readU16 d (hdrLoc m + 2) = readU16 p.data (hdrLoc m + 2) ∧
      readU16 d (hdrLoc m + 4) = readU16 p.data (hdrLoc m + 4)) →
    (∀ m (hm : m < a.length), j ≤ m → ∀ id2 bs2,
      a.get ⟨m, hm⟩ = .live id2 bs2 →
      ∀ k, k < bs2.length → d (offA a m - bs2.length + k) = bs2.getD k 0) →
    (∀ m (hm : m < (a.set i DEntry.dead).length), m < j → m ≠ i →
      EntryRel (a.set i .dead) (Page.mk d) m hm) →
    (∀ q, q < 8 →
      compactLoop fuel d (hdrLoc j) (8 + 6 * a.length)
        (offA (a.set i .dead) j) (offA (a.set i .dead) j) q = p.data q) ∧
    (∀ m (hm : m < (a.set i DEntry.dead).length), m ≠ i →
      EntryRel (a.set i .dead)
        (Page.mk (compactLoop fuel d (hdrLoc j) (8 + 6 * a.length)
          (offA (a.set i .dead) j) (offA (a.set i .dead) j))) m hm) := by
  have hsp : 8 + 6 * a.length + totalSizeA a ≤ 4096 := by
    have h1 := hwf.space
    simpa [META_HEADER_SIZE, SLOT_META_SIZE, PAGE_SIZE] using h1
  have hlsd : (a.set i DEntry.dead).length = a.length := List.length_set a i _
  have htsp : totalSizeA (a.set i .dead) + bs.length = totalSizeA a :=
    totalSizeA_set_dead a i hi slot bs hget
  intro fuel
  induction fuel with
  | zero =>
    intro j d hij hjL hfuel hH0 hH1 hH2 hH3
    have hjeq : j = a.length := by omega
    subst hjeq
    exact ⟨fun q hq => hH0 q hq, fun m hm hmi => hH3 m hm (by omega) hmi⟩
  | succ fuel ih =>
    intro j d hij hjL hfuel hH0 hH1 hH2 hH3
    by_cases hjlt : j < a.length
    · have hguard : hdrLoc j < 8 + 6 * a.length := by
        simp only [hdrLoc, META_HEADER_SIZE, SLOT_META_SIZE]
        omega
      have hnext : hdrLoc j + 6 = hdrLoc (j + 1) := by
        simp only [hdrLoc, META_HEADER_SIZE, SLOT_META_SIZE]
        omega
      obtain ⟨heq1, heq2, heq3⟩ := hH1 j (le_refl j) (by omega)
      have hEj := hrel.entry j hjlt
      unfold EntryRel at hEj
      have hjlt' : j < (a.set i DEntry.dead).length := by omega
      have hgset : (a.set i DEntry.dead).get ⟨j, hjlt'⟩ = a.get ⟨j, hjlt⟩ :=
        get_set_ne a i j _ hjlt hjlt' (by omega)
      have hsbsd := sizesBefore_set_dead_gt a i j hi (by omega) slot bs hget
      have hsbsd1 := sizesBefore_set_dead_gt a i (j + 1) hi (by omega) slot bs hget
      have hsble := sizesBefore_le_total a j
      have hsble1 := sizesBefore_le_total a (j + 1)
      cases hg : a.get ⟨j, hjlt⟩ with
      | dead =>
        rw [hg] at hEj
        obtain ⟨e1, e2, e3⟩ := hEj
        have hreadoff : readU16 d (hdrLoc j + 4) = 0 := by
          rw [heq3, e3]
        have hsbj1 : sizesBefore a (j + 1) = sizesBefore a j := by
          have h1 := sizesBefore_succ a j hjlt
          rw [hg] at h1
          simpa [entrySizeA] using h1
        have hoffeqn : offA (a.set i .dead) j = offA (a.set i .dead) (j + 1) := by
          simp only [offA]
          omega
        have hloopeq : compactLoop (fuel + 1) d (hdrLoc j) (8 + 6 * a.length)
            (offA (a.set i .dead) j) (offA (a.set i .dead) j) =
            compactLoop fuel d (hdrLoc (j + 1)) (8 + 6 * a.length)
              (offA (a.set i .dead) (j + 1)) (offA (a.set i .dead) (j + 1)) := by
          simp only [compactLoop]
          rw [if_pos hguard, hreadoff]
          simp only [ne_eq, not_true_eq_false, if_false, hnext, hoffeqn]
        rw [hloopeq]
        refine ih (j + 1) d (by omega) (by omega) (by omega) hH0 ?_ ?_ ?_
        · intro m hm1 hm2
          exact hH1 m (by omega) hm2
        · intro m hm hjm id2 bs2 hg2 k hk
          exact hH2 m hm (by omega) id2 bs2 hg2 k hk
        · intro m hm hmj hmi
          by_cases hmlt : m < j
          · exact hH3 m hm hmlt hmi
          · have hmeq : m = j := by omega
            subst hmeq
            unfold EntryRel
            rw [hgset, hg]
            exact ⟨by rw [heq1, e1], by rw [heq2, e2], by rw [heq3, e3]⟩
      | live idj bsj =>
        rw [hg] at hEj
        obtain ⟨e1, e2, e3, e4⟩ := hEj
        have hreadoff : readU16 d (hdrLoc j + 4) = offA a j := by
          rw [heq3, e3]
        have hreadsz : readU16 d (hdrLoc j + 2) = bsj.length := by
          rw [heq2, e2]
        have hone : offA a j ≠ 0 := by
          have := offA_pos a hwf j
          omega
        have hsbj1 : sizesBefore a (j + 1) = sizesBefore a j + bsj.length := by
          have h1 := sizesBefore_succ a j hjlt
          rw [hg] at h1
          simpa [entrySizeA] using h1
        have hoffaj : offA a j = 4096 - sizesBefore a j := by
          simp [offA, PAGE_SIZE]
        have hoffpj : offA (a.set i .dead) j =
            4096 - (sizesBefore a j - bs.length) := by
          simp only [offA, PAGE_SIZE]
          omega
        have hoffpj1 : offA (a.set i .dead) (j + 1) =
            4096 - (sizesBefore a (j + 1) - bs.length) := by
          simp only [offA, PAGE_SIZE]
          omega
        have hnsi2 : offA (a.set i .dead) j - bsj.length =
            offA (a.set i .dead) (j + 1) := by
          omega
        have hloopeq : compactLoop (fuel + 1) d (hdrLoc j) (8 + 6 * a.length)
            (offA (a.set i .dead) j) (offA (a.set i .dead) j) =
            compactLoop fuel
              (writeU16 (copyWithin d (offA a j - bsj.length) (offA a j)
                (offA (a.set i .dead) (j + 1))) (hdrLoc j + 4)
                (offA (a.set i .dead) j))
              (hdrLoc (j + 1)) (8 + 6 * a.length)
              (offA (a.set i .dead) (j + 1)) (offA (a.set i .dead) (j + 1)) := by
          simp only [compactLoop]
          rw [if_pos hguard, hreadoff]
          rw [if_pos hone, hreadsz, hnsi2, hnext]
        rw [hloopeq]
        refine ih (j + 1)
          (writeU16 (copyWithin d (offA a j - bsj.length) (offA a j)
            (offA (a.set i .dead) (j + 1))) (hdrLoc j + 4)
            (offA (a.set i .dead) j))
          (by omega) (by omega) (by omega) ?_ ?_ ?_ ?_
        · intro q hq
          rw [writeU16_apply_ne _ _ _ _
              (by simp only [hdrLoc, META_HEADER_SIZE, SLOT_META_SIZE]; omega)
              (by simp only [hdrLoc, META_HEADER_SIZE, SLOT_META_SIZE]; omega),
            copyWithin_apply_out _ _ _ _ _ (by omega)]
          exact hH0 q hq
        · intro m hm1 hm2
          have hhm : hdrLoc m + 5 < 8 + 6 * a.length := by
            simp only [hdrLoc, META_HEADER_SIZE, SLOT_META_SIZE]
            omega
          have hhm2 : hdrLoc j + 4 + 1 < hdrLoc m := by
            simp only [hdrLoc, META_HEADER_SIZE, SLOT_META_SIZE]
            omega
          obtain ⟨f1, f2, f3⟩ := hH1 m (by omega) hm2
          refine ⟨?_, ?_, ?_⟩
          · rw [readU16_writeU16_ne _ _ _ _ (by omega),
              readU16_copyWithin_out _ _ _ _ _ (by omega), f1]
          · rw [readU16_writeU16_ne _ _ _ _ (by omega),
              readU16_copyWithin_out _ _ _ _ _ (by omega), f2]
          · rw [readU16_writeU16_ne _ _ _ _ (by omega),
              readU16_copyWithin_out _ _ _ _ _ (by omega), f3]
        · intro m hm hjm id2 bs2 hg2 k hk
          have hsm : sizesBefore a (m + 1) = sizesBefore a m + bs2.length := by
            have h1 := sizesBefore_succ a m hm
            rw [hg2] at h1
            simpa [entrySizeA] using h1
          have hsmle := sizesBefore_le_total a (m + 1)
          have hmono := sizesBefore_mono a (j + 1) m (by omega)
          have hoffam : offA a m = 4096 - sizesBefore a m := by
            simp [offA, PAGE_SIZE]
          rw [writeU16_apply_ne _ _ _ _
              (by simp only [hdrLoc, META_HEADER_SIZE, SLOT_META_SIZE]; omega)
              (by simp only [hdrLoc, META_HEADER_SIZE, SLOT_META_SIZE]; omega),
            copyWithin_apply_out _ _ _ _ _ (by omega)]
          exact hH2 m hm (by omega) id2 bs2 hg2 k hk
        · intro m hm hmj hmi
          by_cases hmlt : m < j
          · have hold := hH3 m hm hmlt hmi
            unfold EntryRel at hold ⊢
            have hmlta : m < a.length := by omega
            have hgm : (a.set i DEntry.dead).get ⟨m, hm⟩ =
                (a.set i DEntry.dead).get ⟨m, hm⟩ := rfl
            have hhdrm : hdrLoc m + 5 < hdrLoc j + 4 := by
              simp only [hdrLoc, META_HEADER_SIZE, SLOT_META_SIZE]
              omega
            have hhdrL : hdrLoc m + 5 < 8 + 6 * a.length := by
              simp only [hdrLoc, META_HEADER_SIZE, SLOT_META_SIZE]
              omega
            cases hgm2 : (a.set i DEntry.dead).get ⟨m, hm⟩ with
            | dead =>
              rw [hgm2] at hold
              obtain ⟨f1, f2, f3⟩ := hold
              refine ⟨?_, ?_, ?_⟩
              · rw [readU16_writeU16_ne _ _ _ _ (by omega),
                  readU16_copyWithin_out _ _ _ _ _ (by omega)]
                exact f1
              · rw [readU16_writeU16_ne _ _ _ _ (by omega),
                  readU16_copyWithin_out _ _ _ _ _ (by omega)]
                exact f2
              · rw [readU16_writeU16_ne _ _ _ _ (by omega),
                  readU16_copyWithin_out _ _ _ _ _ (by omega)]
                exact f3
            | live id2 bs2 =>
              rw [hgm2] at hold
              obtain ⟨f1, f2, f3, f4⟩ := hold
              have hsm : sizesBefore (a.set i .dead) (m + 1) =
                  sizesBefore (a.set i .dead) m + bs2.length := by
                have h1 := sizesBefore_succ (a.set i .dead) m hm
                rw [hgm2] at h1
                simpa [entrySizeA] using h1
              have hmono := sizesBefore_mono (a.set i .dead) (m + 1) j
                (by omega)
              have hoffm : offA (a.set i .dead) m =
                  4096 - sizesBefore (a.set i .dead) m := by
                simp [offA, PAGE_SIZE]
              have hsmleD := sizesBefore_le_total (a.set i .dead) (m + 1)
              refine ⟨?_, ?_, ?_, ?_⟩
              · rw [readU16_writeU16_ne _ _ _ _ (by omega),
                  readU16_copyWithin_out _ _ _ _ _ (by omega)]
                exact f1
              · rw [readU16_writeU16_ne _ _ _ _ (by omega),
                  readU16_copyWithin_out _ _ _ _ _ (by omega)]
                exact f2
              · rw [readU16_writeU16_ne _ _ _ _ (by omega),
                  readU16_copyWithin_out _ _ _ _ _ (by omega)]
                exact f3
              · intro k hk
                rw [pageMk_data, writeU16_apply_ne _ _ _ _
                    (by simp only [hdrLoc, META_HEADER_SIZE, SLOT_META_SIZE]; omega)
                    (by simp only [hdrLoc, META_HEADER_SIZE, SLOT_META_SIZE]; omega),
                  copyWithin_apply_out _ _ _ _ _ (by omega)]
                exact f4 k hk
          · have hmeq : m = j := by omega
            subst hmeq
            unfold EntryRel
            rw [hgset, hg]
            have hoffle : offA (a.set i .dead) m ≤ 4096 := by
              simp only [offA, PAGE_SIZE]
              omega
            refine ⟨?_, ?_, ?_, ?_⟩
            · rw [readU16_writeU16_ne _ _ _ _ (by omega),
                readU16_copyWithin_out _ _ _ _ _
                  (by simp only [hdrLoc, META_HEADER_SIZE, SLOT_META_SIZE]; omega),
                heq1]
              exact e1
            · rw [readU16_writeU16_ne _ _ _ _ (by omega),
                readU16_copyWithin_out _ _ _ _ _
                  (by simp only [hdrLoc, META_HEADER_SIZE, SLOT_META_SIZE]; omega),
                heq2]
              exact e2
            · exact readU16_writeU16_self_small _ _ _ (by omega)
            · intro k hk
              rw [hnsi2, pageMk_data, writeU16_apply_ne _ _ _ _
                  (by simp only [hdrLoc, META_HEADER_SIZE, SLOT_META_SIZE]; omega)
                  (by simp only [hdrLoc, META_HEADER_SIZE, SLOT_META_SIZE]; omega),
                copyWithin_apply_in _ _ _ _ _ (by omega) (by omega)]
              have hidx : offA a m - bsj.length +
                  (offA (a.set i .dead) (m + 1) + k -
                    offA (a.set i .dead) (m + 1)) =
                  offA a m - bsj.length + k := by
                omega
              rw [hidx]
              exact hH2 m hjlt (le_refl m) idj bsj hg k hk
    · have hjeq : j = a.length := by omega
      subst hjeq
      have hguard : ¬ hdrLoc a.length < 8 + 6 * a.length := by
        simp only [hdrLoc, META_HEADER_SIZE, SLOT_META_SIZE]
        omega
      have hloopeq : compactLoop (fuel + 1) d (hdrLoc a.length)
          (8 + 6 * a.length) (offA (a.set i .dead) a.length)
          (offA (a.set i .dead) a.length) = d := by
        simp only [compactLoop]
        rw [if_neg hguard]
      rw [hloopeq]
      exact ⟨fun q hq => hH0 q hq, fun m hm hmi => hH3 m hm (by omega) hmi⟩

theorem get_set_self {α : Type} (a : List α) (i : Nat) (x : α)
    (h : i < (a.set i x).length) : (a.set i x).get ⟨i, h⟩ = x := by
  simp only [List.get_eq_getElem]
  rw [List.getElem_set]
  simp

theorem deleteValue_none (p : Page) (a : List DEntry) (hwf : WfA a)
    (hrel : RelA a p) (slot : Nat) (hfind : findLiveIdx slot a = none) :
    deleteValue p slot = (p, none) := by
  unfold deleteValue
  rw [getSlotMetaLoc_char p a hwf hrel slot, hfind]
  rfl

/-- Refinement of a successful `delete_value`: when slot `slot` is live (at
directory position `i`), the call zeroes that entry, compacts the later
payloads, decrements the live count, raises `first_free_offset` by the
deleted size, and re-establishes the byte-level invariants for the directory
with entry `i` dead. -/
theorem deleteValue_rel (p : Page) (a : List DEntry) (hwf : WfA a)
    (hrel : RelA a p) (slot : Nat) (i : Nat)
    (hfind : findLiveIdx slot a = some i) :
    ∃ d7 : Nat → Nat, deleteValue p slot = (Page.mk d7, some ()) ∧
      WfA (a.set i .dead) ∧ RelA (a.set i .dead) (Page.mk d7) := by
  obtain ⟨hi, bs, hget⟩ := findLiveIdx_some slot a i hfind
  have hEi := hrel.entry i hi
  unfold EntryRel at hEi
  rw [hget] at hEi
  obtain ⟨e1, e2, e3, e4⟩ := hEi
  have hsp : 8 + 6 * a.length + totalSizeA a ≤ 4096 := by
    have h1 := hwf.space
    simpa [META_HEADER_SIZE, SLOT_META_SIZE, PAGE_SIZE] using h1
  have hlsd : (a.set i DEntry.dead).length = a.length := List.length_set a i _
  have htsp : totalSizeA (a.set i .dead) + bs.length = totalSizeA a :=
    totalSizeA_set_dead a i hi slot bs hget
  have hsbi : sizesBefore a (i + 1) = sizesBefore a i + bs.length := by
    have h1 := sizesBefore_succ a i hi
    rw [hget] at h1
    simpa [entrySizeA] using h1
  have hsble1 := sizesBefore_le_total a (i + 1)
  have hoffi : offA a i = 4096 - sizesBefore a i := by
    simp [offA, PAGE_SIZE]
  have hlenpos : a ≠ [] := by
    intro h
    subst h
    simp at hi
  have hF0 : ∀ q, q < 8 →
      (fillZero p.data (offA a i - bs.length) (offA a i)) q = p.data q := by
    intro q hq
    rw [fillZero_apply_out _ _ _ _ (by omega)]
  have hF1 : ∀ m, i + 1 ≤ m → m + 1 ≤ a.length →
      readU16 (fillZero p.data (offA a i - bs.length) (offA a i)) (hdrLoc m) =
        readU16 p.data (hdrLoc m) ∧
      readU16 (fillZero p.data (offA a i - bs.length) (offA a i))
        (hdrLoc m + 2) = readU16 p.data (hdrLoc m + 2) ∧
      readU16 (fillZero p.data (offA a i - bs.length) (offA a i))
        (hdrLoc m + 4) = readU16 p.data (hdrLoc m + 4) := by
    intro m h1 h2
    refine ⟨?_, ?_, ?_⟩ <;>
      rw [readU16_fillZero_out _ _ _ _
        (by simp only [hdrLoc, META_HEADER_SIZE, SLOT_META_SIZE]; omega)]
  have hF2 : ∀ m (hm : m < a.length), i + 1 ≤ m → ∀ id2 bs2,
      a.get ⟨m, hm⟩ = .live id2 bs2 → ∀ k, k < bs2.length →
      (fillZero p.data (offA a i - bs.length) (offA a i))
        (offA a m - bs2.length + k) = bs2.getD k 0 := by
    intro m hm h1 id2 bs2 hg2 k hk
    have hsm : sizesBefore a (m + 1) = sizesBefore a m + bs2.length := by
      have h3 := sizesBefore_succ a m hm
      rw [hg2] at h3
      simpa [entrySizeA] using h3
    have hsmle := sizesBefore_le_total a (m + 1)
    have hmono := sizesBefore_mono a (i + 1) m h1
    have hoffam : offA a m = 4096 - sizesBefore a m := by
      simp [offA, PAGE_SIZE]
    rw [fillZero_apply_out _ _ _ _ (by omega)]
    have hE := hrel.entry m hm
    unfold EntryRel at hE
    rw [hg2] at hE
    exact hE.2.2.2 k hk
  have hF3 : ∀ m (hm : m < (a.set i DEntry.dead).length), m < i + 1 → m ≠ i →
      EntryRel (a.set i .dead)
        (Page.mk (fillZero p.data (offA a i - bs.length) (offA a i))) m hm := by
    intro m hm hlt hne
    have hmi : m < i := by omega
    have hmla : m < a.length := by omega
    have hgm : (a.set i DEntry.dead).get ⟨m, hm⟩ = a.get ⟨m, hmla⟩ :=
      get_set_ne a i m _ hmla hm hne
    have hE := hrel.entry m hmla
    unfold EntryRel at hE ⊢
    rw [hgm]
    have hoffm_eq : offA (a.set i .dead) m = offA a m :=
      offA_set_dead_le a i m (by omega)
    have hmono := sizesBefore_mono a (m + 1) i (by omega)
    cases hg2 : a.get ⟨m, hmla⟩ with
    | dead =>
      rw [hg2] at hE
      obtain ⟨f1, f2, f3⟩ := hE
      refine ⟨?_, ?_, ?_⟩ <;>
        rw [readU16_fillZero_out _ _ _ _
          (by simp only [hdrLoc, META_HEADER_SIZE, SLOT_META_SIZE]; omega)]
      · exact f1
      · exact f2
      · exact f3
    | live id2 bs2 =>
      rw [hg2] at hE
      obtain ⟨f1, f2, f3, f4⟩ := hE
      have hsm : sizesBefore a (m + 1) = sizesBefore a m + bs2.length := by
        have h3 := sizesBefore_succ a m hmla
        rw [hg2] at h3
        simpa [entrySizeA] using h3
      have hoffam : offA a m = 4096 - sizesBefore a m := by
        simp [offA, PAGE_SIZE]
      have hsblei := sizesBefore_le_total a i
      refine ⟨?_, ?_, ?_, ?_⟩
      · rw [readU16_fillZero_out _ _ _ _
          (by simp only [hdrLoc, META_HEADER_SIZE, SLOT_META_SIZE]; omega)]
        exact f1
      · rw [readU16_fillZero_out _ _ _ _
          (by simp only [hdrLoc, META_HEADER_SIZE, SLOT_META_SIZE]; omega)]
        exact f2
      · rw [hoffm_eq, readU16_fillZero_out _ _ _ _
          (by simp only [hdrLoc, META_HEADER_SIZE, SLOT_META_SIZE]; omega)]
        exact f3
      · intro k hk
        rw [hoffm_eq, pageMk_data, fillZero_apply_out _ _ _ _ (by omega)]
        exact f4 k hk
  obtain ⟨C0, C1⟩ := compactLoop_spec p a hwf hrel i hi slot bs hget
    (a.length + 1) (i + 1)
    (fillZero p.data (offA a i - bs.length) (offA a i))
    (by omega) (by omega) (by omega) hF0 hF1 hF2 hF3
  have hnext : hdrLoc i + 6 = hdrLoc (i + 1) := by
    simp only [hdrLoc, META_HEADER_SIZE, SLOT_META_SIZE]
    omega
  have hod : offA (a.set i .dead) (i + 1) = offA a i := by
    have h1 := sizesBefore_set_dead_le a i i (le_refl i)
    have h2 : sizesBefore (a.set i DEntry.dead) (i + 1) =
        sizesBefore (a.set i DEntry.dead) i := by
      have h3 := sizesBefore_succ (a.set i DEntry.dead) i (by omega)
      rw [get_set_self a i DEntry.dead (by omega)] at h3
      simpa [entrySizeA] using h3
    simp only [offA]
    omega
  rw [← hnext, hod] at C0 C1
  have hr2 : readU16 (compactLoop (a.length + 1)
      (fillZero p.data (offA a i - bs.length) (offA a i)) (hdrLoc i + 6)
      (8 + 6 * a.length) (offA a i) (offA a i)) 2 = numA a := by
    unfold readU16
    rw [C0 2 (by omega), C0 3 (by omega)]
    have h1 := hrel.num
    unfold getNumSlots NUMSLOTS_LOC at h1
    exact h1
  have hr4 : readU16 (compactLoop (a.length + 1)
      (fillZero p.data (offA a i - bs.length) (offA a i)) (hdrLoc i + 6)
      (8 + 6 * a.length) (offA a i) (offA a i)) 4 = 4096 - totalSizeA a := by
    unfold readU16
    rw [C0 4 (by omega), C0 5 (by omega)]
    have h1 := hrel.rawFirst hlenpos
    unfold FIRSTOFFSET_LOC at h1
    simp only [PAGE_SIZE] at h1
    exact h1
  have hr6 : readU16 (compactLoop (a.length + 1)
      (fillZero p.data (offA a i - bs.length) (offA a i)) (hdrLoc i + 6)
      (8 + 6 * a.length) (offA a i) (offA a i)) 6 = a.length := by
    unfold readU16
    rw [C0 6 (by omega), C0 7 (by omega)]
    have h1 := hrel.total
    unfold getTotalSlotHeaders TOTSLOTS_LOC at h1
    exact h1
  have hslotsz : getSlotSize p (hdrLoc i) = bs.length := by
    unfold getSlotSize
    exact e2
  have hslotoff : getSlotOffset p (hdrLoc i) = offA a i := by
    unfold getSlotOffset
    exact e3
  have htsh1 : getTotalSlotHeaders
      (Page.mk (fillZero p.data (offA a i - bs.length) (offA a i))) =
      a.length := by
    unfold getTotalSlotHeaders TOTSLOTS_LOC
    rw [readU16_fillZero_out _ _ _ _ (by omega)]
    have h1 := hrel.total
    unfold getTotalSlotHeaders TOTSLOTS_LOC at h1
    exact h1
  have hmulc : META_HEADER_SIZE + a.length * SLOT_META_SIZE =
      8 + 6 * a.length := by
    simp only [META_HEADER_SIZE, SLOT_META_SIZE]
    omega
  have hsmeta : hdrLoc i + SLOT_META_SIZE = hdrLoc i + 6 := by
    simp [SLOT_META_SIZE]
  have hnum5 : getNumSlots (Page.mk (writeU16 (writeU16 (writeU16
      (compactLoop (a.length + 1)
        (fillZero p.data (offA a i - bs.length) (offA a i)) (hdrLoc i + 6)
        (8 + 6 * a.length) (offA a i) (offA a i))
      (hdrLoc i) 0) (hdrLoc i + 2) 0) (hdrLoc i + 4) 0)) = numA a := by
    unfold getNumSlots NUMSLOTS_LOC
    rw [readU16_writeU16_ne _ _ _ _
        (by simp only [hdrLoc, META_HEADER_SIZE, SLOT_META_SIZE]; omega),
      readU16_writeU16_ne _ _ _ _
        (by simp only [hdrLoc, META_HEADER_SIZE, SLOT_META_SIZE]; omega),
      readU16_writeU16_ne _ _ _ _
        (by simp only [hdrLoc, META_HEADER_SIZE, SLOT_META_SIZE]; omega),
      hr2]
  have hfirst6 : getFirstOffset (Page.mk (writeU16 (writeU16 (writeU16
      (writeU16 (compactLoop (a.length + 1)
        (fillZero p.data (offA a i - bs.length) (offA a i)) (hdrLoc i + 6)
        (8 + 6 * a.length) (offA a i) (offA a i))
      (hdrLoc i) 0) (hdrLoc i + 2) 0) (hdrLoc i + 4) 0) 2 (numA a - 1))) =
      4096 - totalSizeA a := by
    unfold getFirstOffset FIRSTOFFSET_LOC
    rw [readU16_writeU16_ne _ _ _ _ (by omega),
      readU16_writeU16_ne _ _ _ _
        (by simp only [hdrLoc, META_HEADER_SIZE, SLOT_META_SIZE]; omega),
      readU16_writeU16_ne _ _ _ _
        (by simp only [hdrLoc, META_HEADER_SIZE, SLOT_META_SIZE]; omega),
      readU16_writeU16_ne _ _ _ _
        (by simp only [hdrLoc, META_HEADER_SIZE, SLOT_META_SIZE]; omega),
      hr4, if_neg (by omega)]
  have hNum := numA_le_length a
  have hnum' : numA (a.set i DEntry.dead) + 1 = numA a :=
    numA_set_dead a i hi slot bs hget
  have hro0 : ∀ m, m < a.length → m ≠ i →
      readU16 (writeU16 (writeU16 (writeU16 (writeU16 (writeU16
        (compactLoop (a.length + 1)
          (fillZero p.data (offA a i - bs.length) (offA a i)) (hdrLoc i + 6)
          (8 + 6 * a.length) (offA a i) (offA a i))
        (hdrLoc i) 0) (hdrLoc i + 2) 0) (hdrLoc i + 4) 0) 2 (numA a - 1)) 4
        (4096 - totalSizeA a + bs.length)) (hdrLoc m) =
      readU16 (compactLoop (a.length + 1)
        (fillZero p.data (offA a i - bs.length) (offA a i)) (hdrLoc i + 6)
        (8 + 6 * a.length) (offA a i) (offA a i)) (hdrLoc m) := by
    intro m hm hmne
    rw [readU16_writeU16_ne _ _ _ _
        (by simp only [hdrLoc, META_HEADER_SIZE, SLOT_META_SIZE]; omega),
      readU16_writeU16_ne _ _ _ _
        (by simp only [hdrLoc, META_HEADER_SIZE, SLOT_META_SIZE]; omega),
      readU16_writeU16_ne _ _ _ _
        (by simp only [hdrLoc, META_HEADER_SIZE, SLOT_META_SIZE]; omega),
      readU16_writeU16_ne _ _ _ _
        (by simp only [hdrLoc, META_HEADER_SIZE, SLOT_META_SIZE]; omega),
      readU16_writeU16_ne _ _ _ _
        (by simp only [hdrLoc, META_HEADER_SIZE, SLOT_META_SIZE]; omega)]
  have hro2 : ∀ m, m < a.length → m ≠ i →
      readU16 (writeU16 (writeU16 (writeU16 (writeU16 (writeU16
        (compactLoop (a.length + 1)
          (fillZero p.data (offA a i - bs.length) (offA a i)) (hdrLoc i + 6)
          (8 + 6 * a.length) (offA a i) (offA a i))
        (hdrLoc i) 0) (hdrLoc i + 2) 0) (hdrLoc i + 4) 0) 2 (numA a - 1)) 4
        (4096 - totalSizeA a + bs.length)) (hdrLoc m + 2) =
      readU16 (compactLoop (a.length + 1)
        (fillZero p.data (offA a i - bs.length) (offA a i)) (hdrLoc i + 6)
        (8 + 6 * a.length) (offA a i) (offA a i)) (hdrLoc m + 2) := by
    intro m hm hmne
    rw [readU16_writeU16_ne _ _ _ _
        (by simp only [hdrLoc, META_HEADER_SIZE, SLOT_META_SIZE]; omega),
      readU16_writeU16_ne _ _ _ _
        (by simp only [hdrLoc, META_HEADER_SIZE, SLOT_META_SIZE]; omega),
      readU16_writeU16_ne _ _ _ _
        (by simp only [hdrLoc, META_HEADER_SIZE, SLOT_META_SIZE]; omega),
      readU16_writeU16_ne _ _ _ _
        (by simp only [hdrLoc, META_HEADER_SIZE, SLOT_META_SIZE]; omega),
      readU16_writeU16_ne _ _ _ _
        (by simp only [hdrLoc, META_HEADER_SIZE, SLOT_META_SIZE]; omega)]
  have hro4 : ∀ m, m < a.length → m ≠ i →
      readU16 (writeU16 (writeU16 (writeU16 (writeU16 (writeU16
        (compactLoop (a.length + 1)
          (fillZero p.data (offA a i - bs.length) (offA a i)) (hdrLoc i + 6)
          (8 + 6 * a.length) (offA a i) (offA a i))
        (hdrLoc i) 0) (hdrLoc i + 2) 0) (hdrLoc i + 4) 0) 2 (numA a - 1)) 4
        (4096 - totalSizeA a + bs.length)) (hdrLoc m + 4) =
      readU16 (compactLoop (a.length + 1)
        (fillZero p.data (offA a i - bs.length) (offA a i)) (hdrLoc i + 6)
        (8 + 6 * a.length) (offA a i) (offA a i)) (hdrLoc m + 4) := by
    intro m hm hmne
    rw [readU16_writeU16_ne _ _ _ _
        (by simp only [hdrLoc, META_HEADER_SIZE, SLOT_META_SIZE]; omega),
      readU16_writeU16_ne _ _ _ _
        (by simp only [hdrLoc, META_HEADER_SIZE, SLOT_META_SIZE]; omega),
      readU16_writeU16_ne _ _ _ _
        (by simp only [hdrLoc, META_HEADER_SIZE, SLOT_META_SIZE]; omega),
      readU16_writeU16_ne _ _ _ _
        (by simp only [hdrLoc, META_HEADER_SIZE, SLOT_META_SIZE]; omega),
      readU16_writeU16_ne _ _ _ _
        (by simp only [hdrLoc, META_HEADER_SIZE, SLOT_META_SIZE]; omega)]
  refine ⟨writeU16 (writeU16 (writeU16 (writeU16 (writeU16
      (compactLoop (a.length + 1)
        (fillZero p.data (offA a i - bs.length) (offA a i)) (hdrLoc i + 6)
        (8 + 6 * a.length) (offA a i) (offA a i))
      (hdrLoc i) 0) (hdrLoc i + 2) 0) (hdrLoc i + 4) 0) 2 (numA a - 1)) 4
      (4096 - totalSizeA a + bs.length), ?_,
    wfA_set_dead a hwf i hi slot bs hget, ?_⟩
  · unfold deleteValue
    rw [getSlotMetaLoc_char p a hwf hrel slot, hfind]
    simp only [Option.map_some', hslotsz, hslotoff, htsh1, hmulc, hsmeta,
      hnum5, NUMSLOTS_LOC, FIRSTOFFSET_LOC, hfirst6]
  · refine ⟨?_, ?_, ?_, ?_, ?_⟩
    · rw [hlsd]
      unfold getTotalSlotHeaders TOTSLOTS_LOC
      rw [readU16_writeU16_ne _ _ _ _ (by omega),
        readU16_writeU16_ne _ _ _ _ (by omega),
        readU16_writeU16_ne _ _ _ _
          (by simp only [hdrLoc, META_HEADER_SIZE, SLOT_META_SIZE]; omega),
        readU16_writeU16_ne _ _ _ _
          (by simp only [hdrLoc, META_HEADER_SIZE, SLOT_META_SIZE]; omega),
        readU16_writeU16_ne _ _ _ _
          (by simp only [hdrLoc, META_HEADER_SIZE, SLOT_META_SIZE]; omega),
        hr6]
    · unfold getNumSlots NUMSLOTS_LOC
      rw [readU16_writeU16_ne _ _ _ _ (by omega),
        readU16_writeU16_self_small _ _ _ (by omega)]
      omega
    · unfold getFirstOffset FIRSTOFFSET_LOC
      rw [readU16_writeU16_self_small _ _ _ (by omega), if_neg (by omega)]
      simp only [PAGE_SIZE]
      omega
    · intro _
      show readU16 _ FIRSTOFFSET_LOC = _
      simp only [FIRSTOFFSET_LOC, PAGE_SIZE]
      rw [readU16_writeU16_self_small _ _ _ (by omega)]
      omega
    · intro m hm
      by_cases hmi : m = i
      · subst hmi
        unfold EntryRel
        rw [get_set_self a m DEntry.dead hm]
        refine ⟨?_, ?_, ?_⟩
        · rw [readU16_writeU16_ne _ _ _ _
              (by simp only [hdrLoc, META_HEADER_SIZE, SLOT_META_SIZE]; omega),
            readU16_writeU16_ne _ _ _ _
              (by simp only [hdrLoc, META_HEADER_SIZE, SLOT_META_SIZE]; omega),
            readU16_writeU16_ne _ _ _ _ (by omega),
            readU16_writeU16_ne _ _ _ _ (by omega),
            readU16_writeU16_self_small _ _ _ (by omega)]
        · rw [readU16_writeU16_ne _ _ _ _
              (by simp only [hdrLoc, META_HEADER_SIZE, SLOT_META_SIZE]; omega),
            readU16_writeU16_ne _ _ _ _
              (by simp only [hdrLoc, META_HEADER_SIZE, SLOT_META_SIZE]; omega),
            readU16_writeU16_ne _ _ _ _ (by omega),
            readU16_writeU16_self_small _ _ _ (by omega)]
        · rw [readU16_writeU16_ne _ _ _ _
              (by simp only [hdrLoc, META_HEADER_SIZE, SLOT_META_SIZE]; omega),
            readU16_writeU16_ne _ _ _ _
              (by simp only [hdrLoc, META_HEADER_SIZE, SLOT_META_SIZE]; omega),
            readU16_writeU16_self_small _ _ _ (by omega)]
      · have hC := C1 m hm hmi
        unfold EntryRel at hC ⊢
        have hmla : m < a.length := by omega
        cases hgm : (a.set i DEntry.dead).get ⟨m, hm⟩ with
        | dead =>
          rw [hgm] at hC
          obtain ⟨f1, f2, f3⟩ := hC
          exact ⟨by rw [hro0 m hmla hmi]; exact f1,
            by rw [hro2 m hmla hmi]; exact f2,
            by rw [hro4 m hmla hmi]; exact f3⟩
        | live id2 bs2 =>
          rw [hgm] at hC
          obtain ⟨f1, f2, f3, f4⟩ := hC
          refine ⟨by rw [hro0 m hmla hmi]; exact f1,
            by rw [hro2 m hmla hmi]; exact f2,
            by rw [hro4 m hmla hmi]; exact f3, ?_⟩
          intro k hk
          have hsm2 : sizesBefore (a.set i DEntry.dead) (m + 1) =
              sizesBefore (a.set i DEntry.dead) m + bs2.length := by
            have h3 := sizesBefore_succ (a.set i DEntry.dead) m hm
            rw [hgm] at h3
            simpa [entrySizeA] using h3
          have hsmle2 := sizesBefore_le_total (a.set i DEntry.dead) (m + 1)
          have hoffm2 : offA (a.set i DEntry.dead) m =
              4096 - sizesBefore (a.set i DEntry.dead) m := by
            simp [offA, PAGE_SIZE]
          rw [pageMk_data,
            writeU16_apply_ne _ _ _ _ (by omega) (by omega),
            writeU16_apply_ne _ _ _ _ (by omega) (by omega),
            writeU16_apply_ne _ _ _ _
              (by simp only [hdrLoc, META_HEADER_SIZE, SLOT_META_SIZE]; omega)
              (by simp only [hdrLoc, META_HEADER_SIZE, SLOT_META_SIZE]; omega),
            writeU16_apply_ne _ _ _ _
              (by simp only [hdrLoc, META_HEADER_SIZE, SLOT_META_SIZE]; omega)
              (by simp only [hdrLoc, META_HEADER_SIZE, SLOT_META_SIZE]; omega),
            writeU16_apply_ne _ _ _ _
              (by simp only [hdrLoc, META_HEADER_SIZE, SLOT_META_SIZE]; omega)
              (by simp only [hdrLoc, META_HEADER_SIZE, SLOT_META_SIZE]; omega)]
          exact f4 k hk

theorem wfA_nil : WfA [] := by
  refine ⟨?_, ?_, ?_, ?_⟩
  · simp [liveIdsA]
  · intro id hmem
    simp [liveIdsA] at hmem
  · simp [totalSizeA, META_HEADER_SIZE, SLOT_META_SIZE, PAGE_SIZE]
  · intro _ i hi
    simp at hi

theorem relA_new_nil (pid : Nat) : RelA [] (Page.new pid) := by
  refine ⟨?_, ?_, ?_, ?_, ?_⟩
  · rw [getTotalSlotHeaders_new]
    rfl
  · rw [getNumSlots_new]
    rfl
  · rw [getFirstOffset_new]
    simp [totalSizeA]
  · intro h
    exact absurd rfl h
  · intro i hi
    simp at hi

theorem offA_set_dead_gt (a : List DEntry) (hwf : WfA a) (i m : Nat)
    (hi : i < a.length) (him : i < m) (slot : Nat) (bs : List Nat)
    (hget : a.get ⟨i, hi⟩ = .live slot bs) :
    offA (a.set i .dead) m = offA a m + bs.length := by
  have h1 := sizesBefore_set_dead_gt a i m hi him slot bs hget
  have h2 := sizesBefore_le_total a m
  have hsp := hwf.space
  simp only [META_HEADER_SIZE, SLOT_META_SIZE, PAGE_SIZE] at hsp
  simp only [offA, PAGE_SIZE]
  omega

theorem findLiveIdx_set_dead_ne (a : List DEntry) (i : Nat)
    (hi : i < a.length) (slot : Nat) (bs : List Nat)
    (hget : a.get ⟨i, hi⟩ = .live slot bs) (t : Nat) (ht : t ≠ slot) :
    findLiveIdx t (a.set i .dead) = findLiveIdx t a := by
  induction a generalizing i with
  | nil => simp at hi
  | cons e rest ih =>
    cases i with
    | zero =>
      have he : e = DEntry.live slot bs := hget
      subst he
      have hts : ¬ slot = t := fun h2 => ht h2.symm
      simp [findLiveIdx, hts]
    | succ i2 =>
      have hi2 : i2 < rest.length := by simpa using hi
      have hget2 : rest.get ⟨i2, hi2⟩ = .live slot bs := hget
      cases e with
      | dead => simp [findLiveIdx, ih i2 hi2 hget2]
      | live id2 bs2 =>
        by_cases hid : id2 = t
        · simp [findLiveIdx, hid]
        · simp [findLiveIdx, hid, ih i2 hi2 hget2]

theorem liveBytesAt_set_dead_ne (a : List DEntry) (i j : Nat) (hij : j ≠ i) :
    liveBytesAt (a.set i .dead) j = liveBytesAt a j := by
  unfold liveBytesAt
  have h : (a.set i DEntry.dead).get? j = a.get? j := by
    rw [List.get?_eq_getElem?, List.get?_eq_getElem?]
    exact List.getElem?_set_ne (fun h2 => hij h2.symm)
  rw [h]

theorem not_mem_liveIdsA_set_dead (a : List DEntry) (hnd : (liveIdsA a).Nodup)
    (i : Nat) (hi : i < a.length) (slot : Nat) (bs : List Nat)
    (hget : a.get ⟨i, hi⟩ = .live slot bs) :
    slot ∉ liveIdsA (a.set i .dead) := by
  obtain ⟨h1, h2⟩ := liveIdsA_set_dead a i hi slot bs hget
  rw [h1] at hnd
  rw [h2]
  have h3 := List.nodup_middle.mp hnd
  exact (List.nodup_cons.mp h3).1

/-- Every page reachable from `Page::new` by `add_value`/`delete_value` is
abstracted by a well-formed directory: this is the packing invariant (live
payloads contiguous from `first_free_offset` to `PAGE_SIZE`, in directory
order, with correct headers). -/
theorem reach_abstraction (p : Page) (h : Reach p) :
    ∃ a, WfA a ∧ RelA a p := by
  induction h with
  | new pid => exact ⟨[], wfA_nil, relA_new_nil pid⟩
  | add hp hstep ih =>
    obtain ⟨a, hwf, hrel⟩ := ih
    rename_i p2 p2' bytes r
    by_cases hlt : bytes.length < 65536
    · by_cases hfree : bytes.length + 6 ≤ getFreeSpace p2
      · obtain ⟨heq, hwf', hrel'⟩ := addValue_rel p2 a hwf hrel bytes hlt hfree
        rw [heq] at hstep
        injection hstep with hstep2
        injection hstep2 with h1 h2
        exact ⟨a ++ [.live (getNextSlotid p2) bytes], hwf', h1 ▸ hrel'⟩
      · have hav : addValue p2 bytes = .ok (p2, none) := by
          unfold addValue
          rw [Nat.mod_eq_of_lt hlt, if_neg (by omega)]
        rw [hav] at hstep
        injection hstep with hstep2
        injection hstep2 with h1 h2
        exact ⟨a, hwf, h1 ▸ hrel⟩
    · have hne : bytes.length % 65536 ≠ bytes.length := by
        have h2 := Nat.mod_lt bytes.length (show 0 < 65536 by norm_num)
        omega
      by_cases hfree : getFreeSpace p2 ≥ bytes.length % 65536 + 6
      · have hav : addValue p2 bytes = .panicked := by
          unfold addValue
          rw [if_pos hfree, dif_neg hne]
        rw [hav] at hstep
        cases hstep
      · have hav : addValue p2 bytes = .ok (p2, none) := by
          unfold addValue
          rw [if_neg hfree]
        rw [hav] at hstep
        injection hstep with hstep2
        injection hstep2 with h1 h2
        exact ⟨a, hwf, h1 ▸ hrel⟩
  | del hp ih =>
    obtain ⟨a, hwf, hrel⟩ := ih
    rename_i p2 slot
    cases hf : findLiveIdx slot a with
    | none =>
      rw [deleteValue_none p2 a hwf hrel slot hf]
      exact ⟨a, hwf, hrel⟩
    | some i =>
      obtain ⟨d7, heq, hwf', hrel'⟩ := deleteValue_rel p2 a hwf hrel slot i hf
      rw [heq]
      exact ⟨a.set i .dead, hwf', hrel'⟩

/-- C4: for a well-formed page and a payload that fits in the 16-bit size
field, `add_value` returns None exactly when the free space is below the
payload length plus 6; on success it returns the smallest slot id not used
by a live slot; and after `delete_value s` a fitting `add_value` returns
slot id `s` iff `s` is the smallest missing slot id at that moment.  (The
length bound is the needed correction: a payload of 65536 bytes or more
panics instead — see the counterexample.) -/
theorem c4_add_value_spec (p : Page) (a : List DEntry) (hwf : WfA a)
    (hrel : RelA a p) (bytes : List Nat) (hlen : bytes.length < 65536) :
    (addValue p bytes = .ok (p, none) ↔
      getFreeSpace p < bytes.length + 6) ∧
    (bytes.length + 6 ≤ getFreeSpace p →
      ∃ p', addValue p bytes = .ok (p', some (getNextSlotid p)) ∧
        getNextSlotid p ∉ liveIdsA a ∧
        ∀ j, j < getNextSlotid p → j ∈ liveIdsA a) ∧
    (∀ s i, findLiveIdx s a = some i →
      bytes.length + 6 ≤ getFreeSpace (deleteValue p s).1 →
      ∃ p' r, addValue (deleteValue p s).1 bytes = .ok (p', some r) ∧
        (r = s ↔ s ∉ liveIdsA (a.set i .dead) ∧
          ∀ j, j < s → j ∈ liveIdsA (a.set i .dead))) := by
  have hmod := Nat.mod_eq_of_lt hlen
  refine ⟨?_, ?_, ?_⟩
  · constructor
    · intro h
      by_contra hge
      have hge2 : bytes.length + 6 ≤ getFreeSpace p := by omega
      obtain ⟨heq, _, _⟩ := addValue_rel p a hwf hrel bytes hlen hge2
      rw [heq] at h
      injection h with h2
      injection h2 with h3 h4
      cases h4
    · intro h
      unfold addValue
      rw [hmod, if_neg (by omega)]
  · intro hfree
    obtain ⟨heq, hwf', hrel'⟩ := addValue_rel p a hwf hrel bytes hlen hfree
    obtain ⟨hs1, hs2⟩ := getNextSlotid_spec p a hwf hrel
    exact ⟨_, heq, hs1, hs2⟩
  · intro s i hf hfree
    obtain ⟨d7, heq, hwf', hrel'⟩ := deleteValue_rel p a hwf hrel s i hf
    have hfst : (deleteValue p s).1 = Page.mk d7 := by rw [heq]
    rw [hfst] at hfree ⊢
    obtain ⟨heq2, hwf2, hrel2⟩ :=
      addValue_rel (Page.mk d7) (a.set i .dead) hwf' hrel' bytes hlen hfree
    obtain ⟨hs1, hs2⟩ := getNextSlotid_spec (Page.mk d7) (a.set i .dead)
      hwf' hrel'
    refine ⟨_, getNextSlotid (Page.mk d7), heq2, ?_⟩
    constructor
    · intro hr
      subst hr
      exact ⟨hs1, hs2⟩
    · rintro ⟨h1, h2⟩
      by_contra hne
      rcases Nat.lt_or_ge (getNextSlotid (Page.mk d7)) s with hlt | hge
      · exact hs1 (h2 _ hlt)
      · have hlt2 : s < getNextSlotid (Page.mk d7) := by omega
        exact h1 (hs2 s hlt2)

/-- C4 counterexample to the unrestricted claim: a 65536-byte payload does
not fit (free space 4088 on a fresh page is below 65536 + 6), but
`add_value` panics (its `bytes.len() as u16` truncates to 0, the free-space
check passes, and `clone_from_slice` fails on the length mismatch) instead
of returning None. -/
theorem c4_truncation_counterexample :
    getFreeSpace (Page.new 0) < (List.replicate 65536 0).length + 6 ∧
    addValue (Page.new 0) (List.replicate 65536 0) = .panicked := by
  constructor
  · rw [getFreeSpace_new, List.length_replicate]
    norm_num [PAGE_SIZE, META_HEADER_SIZE]
  · unfold addValue
    simp only [List.length_replicate]
    rw [if_pos (by rw [getFreeSpace_new]; norm_num [PAGE_SIZE, META_HEADER_SIZE]),
      dif_neg (by norm_num)]

theorem c4_add_value_spec_witness :
    ((addValue (Page.new 0) [7] = .ok (Page.new 0, none) ↔
        getFreeSpace (Page.new 0) < [7].length + 6) ∧
      ([7].length + 6 ≤ getFreeSpace (Page.new 0) →
        ∃ p', addValue (Page.new 0) [7] =
            .ok (p', some (getNextSlotid (Page.new 0))) ∧
          getNextSlotid (Page.new 0) ∉ liveIdsA [] ∧
          ∀ j, j < getNextSlotid (Page.new 0) → j ∈ liveIdsA []) ∧
      (∀ s i, findLiveIdx s [] = some i →
        [7].length + 6 ≤ getFreeSpace (deleteValue (Page.new 0) s).1 →
        ∃ p' r, addValue (deleteValue (Page.new 0) s).1 [7] =
            .ok (p', some r) ∧
          (r = s ↔ s ∉ liveIdsA (([] : List DEntry).set i .dead) ∧
            ∀ j, j < s → j ∈ liveIdsA (([] : List DEntry).set i .dead)))) :=
  c4_add_value_spec (Page.new 0) [] wfA_nil (relA_new_nil 0) [7] (by norm_num)

/-- C5: every page reachable by `add_value`/`delete_value` from `Page::new`
carries a well-formed directory abstraction whose concretization (`RelA`)
is exactly the packing invariant: live payloads sit contiguously from
`first_free_offset` to `PAGE_SIZE` in directory order.  On such a page,
`delete_value slot` returns None when no live slot matches, and otherwise
clears the matched directory entry, decrements the live count, raises
`first_free_offset` by the deleted payload length, shifts the directory
offset of every later (smaller-offset) live entry up by exactly that
length while earlier entries keep their offset, re-establishes the packing
invariant, and preserves `get_value` of every other slot. -/
theorem c5_delete_value_compacts (p : Page) (hreach : Reach p) :
    ∃ a, WfA a ∧ RelA a p ∧
      ∀ slot,
        (findLiveIdx slot a = none → deleteValue p slot = (p, none)) ∧
        (∀ i, findLiveIdx slot a = some i →
          ∃ (hi : i < a.length) (bs : List Nat) (p' : Page),
            a.get ⟨i, hi⟩ = .live slot bs ∧
            deleteValue p slot = (p', some ()) ∧
            WfA (a.set i .dead) ∧ RelA (a.set i .dead) p' ∧
            getNumSlots p' + 1 = getNumSlots p ∧
            getFirstOffset p' = getFirstOffset p + bs.length ∧
            readU16 p'.data (hdrLoc i) = 0 ∧
            getSlotSize p' (hdrLoc i) = 0 ∧
            getSlotOffset p' (hdrLoc i) = 0 ∧
            getValue p' slot = none ∧
            (∀ t, t ≠ slot → getValue p' t = getValue p t) ∧
            (∀ m (hm : m < a.length), i < m → ∀ id2 bs2,
              a.get ⟨m, hm⟩ = .live id2 bs2 →
              getSlotOffset p' (hdrLoc m) =
                getSlotOffset p (hdrLoc m) + bs.length) ∧
            (∀ m (hm : m < a.length), m < i → ∀ id2 bs2,
              a.get ⟨m, hm⟩ = .live id2 bs2 →
              getSlotOffset p' (hdrLoc m) = getSlotOffset p (hdrLoc m))) := by
  obtain ⟨a, hwf, hrel⟩ := reach_abstraction p hreach
  refine ⟨a, hwf, hrel, ?_⟩
  intro slot
  refine ⟨fun hf => deleteValue_none p a hwf hrel slot hf, ?_⟩
  intro i hf
  obtain ⟨hi, bs, hget⟩ := findLiveIdx_some slot a i hf
  obtain ⟨d7, heq, hwf', hrel'⟩ := deleteValue_rel p a hwf hrel slot i hf
  have hsp : 8 + 6 * a.length + totalSizeA a ≤ 4096 := by
    have h1 := hwf.space
    simpa [META_HEADER_SIZE, SLOT_META_SIZE, PAGE_SIZE] using h1
  have htsp : totalSizeA (a.set i .dead) + bs.length = totalSizeA a :=
    totalSizeA_set_dead a i hi slot bs hget
  have hsbi : sizesBefore a (i + 1) = sizesBefore a i + bs.length := by
    have h1 := sizesBefore_succ a i hi
    rw [hget] at h1
    simpa [entrySizeA] using h1
  have hsble1 := sizesBefore_le_total a (i + 1)
  have hi' : i < (a.set i DEntry.dead).length := by
    simpa using hi
  have hEdead := hrel'.entry i hi'
  unfold EntryRel at hEdead
  rw [get_set_self a i DEntry.dead hi'] at hEdead
  refine ⟨hi, bs, Page.mk d7, hget, heq, hwf', hrel', ?_, ?_, ?_, ?_, ?_,
    ?_, ?_, ?_, ?_⟩
  · rw [hrel'.num, hrel.num]
    exact numA_set_dead a i hi slot bs hget
  · rw [hrel'.first, hrel.first]
    simp only [PAGE_SIZE]
    omega
  · exact hEdead.1
  · unfold getSlotSize
    exact hEdead.2.1
  · unfold getSlotOffset
    exact hEdead.2.2
  · rw [getValue_char (Page.mk d7) _ hwf' hrel' slot]
    have hnone : findLiveIdx slot (a.set i .dead) = none :=
      (findLiveIdx_none_iff slot _).mpr
        (not_mem_liveIdsA_set_dead a hwf.nodup i hi slot bs hget)
    rw [hnone]
    rfl
  · intro t ht
    rw [getValue_char (Page.mk d7) _ hwf' hrel' t,
      getValue_char p a hwf hrel t,
      findLiveIdx_set_dead_ne a i hi slot bs hget t ht]
    cases hft : findLiveIdx t a with
    | none => rfl
    | some j =>
      obtain ⟨hj, bs2, hgj⟩ := findLiveIdx_some t a j hft
      have hji : j ≠ i := by
        intro hj2
        subst hj2
        rw [hget] at hgj
        cases hgj
        exact ht rfl
      simp only [Option.some_bind]
      exact liveBytesAt_set_dead_ne a i j hji
  · intro m hm him id2 bs2 hgm
    have hm' : m < (a.set i DEntry.dead).length := by simpa using hm
    have hE' := hrel'.entry m hm'
    unfold EntryRel at hE'
    rw [get_set_ne a i m _ hm hm' (by omega), hgm] at hE'
    have hE := hrel.entry m hm
    unfold EntryRel at hE
    rw [hgm] at hE
    unfold getSlotOffset
    rw [hE'.2.2.1, hE.2.2.1]
    exact offA_set_dead_gt a hwf i m hi him slot bs hget
  · intro m hm hmi id2 bs2 hgm
    have hm' : m < (a.set i DEntry.dead).length := by simpa using hm
    have hE' := hrel'.entry m hm'
    unfold EntryRel at hE'
    rw [get_set_ne a i m _ hm hm' (by omega), hgm] at hE'
    have hE := hrel.entry m hm
    unfold EntryRel at hE
    rw [hgm] at hE
    unfold getSlotOffset
    rw [hE'.2.2.1, hE.2.2.1]
    exact offA_set_dead_le a i m (by omega)

theorem c5_delete_value_compacts_witness :
    ∃ a, WfA a ∧ RelA a (Page.new 0) ∧
      ∀ slot,
        (findLiveIdx slot a = none →
          deleteValue (Page.new 0) slot = (Page.new 0, none)) ∧
        (∀ i, findLiveIdx slot a = some i →
          ∃ (hi : i < a.length) (bs : List Nat) (p' : Page),
            a.get ⟨i, hi⟩ = .live slot bs ∧
            deleteValue (Page.new 0) slot = (p', some ()) ∧
            WfA (a.set i .dead) ∧ RelA (a.set i .dead) p' ∧
            getNumSlots p' + 1 = getNumSlots (Page.new 0) ∧
            getFirstOffset p' = getFirstOffset (Page.new 0) + bs.length ∧
            readU16 p'.data (hdrLoc i) = 0 ∧
            getSlotSize p' (hdrLoc i) = 0 ∧
            getSlotOffset p' (hdrLoc i) = 0 ∧
            getValue p' slot = none ∧
            (∀ t, t ≠ slot → getValue p' t = getValue (Page.new 0) t) ∧
            (∀ m (hm : m < a.length), i < m → ∀ id2 bs2,
              a.get ⟨m, hm⟩ = .live id2 bs2 →
              getSlotOffset p' (hdrLoc m) =
                getSlotOffset (Page.new 0) (hdrLoc m) + bs.length) ∧
            (∀ m (hm : m < a.length), m < i → ∀ id2 bs2,
              a.get ⟨m, hm⟩ = .live id2 bs2 →
              getSlotOffset p' (hdrLoc m) =
                getSlotOffset (Page.new 0) (hdrLoc m))) :=
  c5_delete_value_compacts (Page.new 0) (Reach.new 0)
